import Mathlib

/-!
Verification of the SUTD FAQ-scraping pipeline (`src/extract_page_content.py`,
`src/extract_faq.py`, `src/extract_links.py`, `src/fetch_html.py`).

Python strings are modelled as `List Char`.  Whitespace is the six ASCII
whitespace characters recognised by Python's `str.strip` and by the regex
class `\s` on ASCII text.  Regex substitutions are modelled by a left-to-right
scanner that at each position attempts the (greedy, backtracking) match of the
concrete pattern and replaces non-overlapping occurrences, exactly as
`re.sub` does.
-/

/-- Python strings are modelled as lists of characters. -/
abbrev Str := List Char

/-- Whitespace test: the six ASCII whitespace characters of Python's `\s`
(space, tab, newline, carriage return, vertical tab, form feed). -/
def isWs (c : Char) : Bool :=
  c = ' ' || c = '\t' || c = '\n' || c = '\r' || c = '\x0b' || c = '\x0c'

/-- Membership in the regex class `[ \t]` (space or tab). -/
def isSpTab (c : Char) : Bool :=
  c = ' ' || c = '\t'

/-- Test that `p` is an initial segment of `s`; models Python `s.startswith(p)`. -/
def beginsWith : Str → Str → Bool
  | [], _ => true
  | _ :: _, [] => false
  | a :: p, b :: s => a = b && beginsWith p s

/-- Test that `pat` occurs as a contiguous substring of the second argument;
models Python's `pat in s`. -/
def containsSub (pat : Str) : Str → Bool
  | [] => pat.isEmpty
  | c :: r => beginsWith pat (c :: r) || containsSub pat r

/-- Remove trailing whitespace; models Python `s.rstrip()`. -/
def rstripWs (s : Str) : Str :=
  (s.reverse.dropWhile isWs).reverse

/-- Remove leading and trailing whitespace; models Python `s.strip()`. -/
def pstrip (s : Str) : Str :=
  rstripWs (s.dropWhile isWs)

/-- Index of the last `'\n'` inside the leading whitespace run of `s`
(`none` when the leading whitespace run contains no newline). -/
def lastNlPos : Str → Option Nat
  | [] => none
  | c :: r =>
    if isWs c then
      match lastNlPos r with
      | some j => some (j + 1)
      | none => if c = '\n' then some 0 else none
    else none

/-- Length of the match of the regex `\s+\n` at the start of `s`, if any.
The greedy `\s+` consumes the maximal whitespace run and then backtracks so
that the final `\n` lands on the last newline of the run; at least one
whitespace character must precede that newline. -/
def mWsNl (s : Str) : Option Nat :=
  match lastNlPos s with
  | some i => if 1 ≤ i then some (i + 1) else none
  | none => none

/-- Length of the match of the regex `[ \t]+\n` at the start of `s`, if any:
a non-empty maximal run of spaces and tabs followed immediately by a newline. -/
def mSpTabNl (s : Str) : Option Nat :=
  let run := s.takeWhile isSpTab
  if run.isEmpty then none
  else match s[run.length]? with
    | some c => if c = '\n' then some (run.length + 1) else none
    | none => none

/-- Length of the match of the regex `\n{3,}` at the start of `s`, if any:
a maximal run of newlines of length at least three. -/
def mNl3 (s : Str) : Option Nat :=
  let run := s.takeWhile (fun c => c = '\n')
  if 3 ≤ run.length then some run.length else none

/-- Left-to-right non-overlapping substitution scanner with explicit fuel.
At each position it attempts the match `m`; on success the match is replaced
by `repl` and scanning resumes after the match, otherwise the character is
copied and scanning advances one position.  `fuel ≥ s.length` suffices. -/
def subScanAux (m : Str → Option Nat) (repl : Str) : Nat → Str → Str
  | 0, s => s
  | _ + 1, [] => []
  | fuel + 1, c :: rest =>
    match m (c :: rest) with
    | some k => repl ++ subScanAux m repl fuel (rest.drop (k - 1))
    | none => c :: subScanAux m repl fuel rest

/-- Substitution of all non-overlapping matches of `m` by `repl`, scanning
left to right; models `re.sub(pattern, repl, s)` for the patterns above. -/
def subScan (m : Str → Option Nat) (repl : Str) (s : Str) : Str :=
  subScanAux m repl s.length s

namespace ExtractFaq

/-- Model of `clean` from `src/extract_faq.py` (lines 15-19):
`re.sub(r"\s+\n", "\n", text)`, then `re.sub(r"\n{3,}", "\n\n", text)`,
then `text.strip()`. -/
def clean (s : Str) : Str :=
  pstrip (subScan mNl3 ['\n', '\n'] (subScan mWsNl ['\n'] s))

end ExtractFaq

namespace ExtractPageContent

/-- Model of `clean` from `src/extract_page_content.py` (lines 27-30):
`re.sub(r"[ \t]+\n", "\n", text)`, then `re.sub(r"\n{3,}", "\n\n", text)`,
then `text.strip()`. -/
def clean (s : Str) : Str :=
  pstrip (subScan mNl3 ['\n', '\n'] (subScan mSpTabNl ['\n'] s))

end ExtractPageContent

/-! ### Generic facts about the substitution scanner -/

theorem subScanAux_nil (m : Str → Option Nat) (repl : Str) (f : Nat) :
    subScanAux m repl f [] = [] := by
  cases f <;> rfl

theorem subScanAux_fuel (m : Str → Option Nat) (repl : Str) :
    ∀ f₁ f₂ s, s.length ≤ f₁ → s.length ≤ f₂ →
      subScanAux m repl f₁ s = subScanAux m repl f₂ s := by
  intro f₁
  induction f₁ with
  | zero =>
    intro f₂ s hs₁ _
    have : s = [] := List.length_eq_zero.mp (Nat.le_zero.mp hs₁)
    subst this
    rw [subScanAux_nil, subScanAux_nil]
  | succ f ih =>
    intro f₂ s hs₁ hs₂
    cases s with
    | nil => rw [subScanAux_nil, subScanAux_nil]
    | cons c rest =>
      cases f₂ with
      | zero => exact absurd hs₂ (by simp)
      | succ g =>
        have hr₁ : rest.length ≤ f := Nat.le_of_succ_le_succ (by simpa using hs₁)
        have hr₂ : rest.length ≤ g := Nat.le_of_succ_le_succ (by simpa using hs₂)
        show (match m (c :: rest) with
          | some k => repl ++ subScanAux m repl f (rest.drop (k - 1))
          | none => c :: subScanAux m repl f rest) =
          (match m (c :: rest) with
          | some k => repl ++ subScanAux m repl g (rest.drop (k - 1))
          | none => c :: subScanAux m repl g rest)
        cases m (c :: rest) with
        | none => simp only; rw [ih g rest hr₁ hr₂]
        | some k =>
          simp only
          rw [ih g (rest.drop (k - 1))
            (le_trans (by simpa using List.length_drop (k-1) rest ▸ Nat.sub_le _ _) hr₁)
            (le_trans (by simpa using List.length_drop (k-1) rest ▸ Nat.sub_le _ _) hr₂)]

theorem subScan_nil (m : Str → Option Nat) (repl : Str) :
    subScan m repl [] = [] := rfl

theorem subScan_match (m : Str → Option Nat) (repl : Str) {c : Char} {rest : Str}
    {k : Nat} (h : m (c :: rest) = some k) :
    subScan m repl (c :: rest) = repl ++ subScan m repl (rest.drop (k - 1)) := by
  show subScanAux m repl (rest.length + 1) (c :: rest) = _
  rw [show subScanAux m repl (rest.length + 1) (c :: rest) =
      (match m (c :: rest) with
        | some k => repl ++ subScanAux m repl rest.length (rest.drop (k - 1))
        | none => c :: subScanAux m repl rest.length rest) from rfl, h]
  simp only [subScan]
  rw [subScanAux_fuel m repl rest.length (rest.drop (k-1)).length (rest.drop (k-1))
    (by simpa using Nat.sub_le _ _) le_rfl]

theorem subScan_nomatch (m : Str → Option Nat) (repl : Str) {c : Char} {rest : Str}
    (h : m (c :: rest) = none) :
    subScan m repl (c :: rest) = c :: subScan m repl rest := by
  show subScanAux m repl (rest.length + 1) (c :: rest) = _
  rw [show subScanAux m repl (rest.length + 1) (c :: rest) =
      (match m (c :: rest) with
        | some k => repl ++ subScanAux m repl rest.length (rest.drop (k - 1))
        | none => c :: subScanAux m repl rest.length rest) from rfl, h]
  rfl

theorem subScan_id (m : Str → Option Nat) (repl : Str) :
    ∀ s, (∀ i, m (s.drop i) = none) → subScan m repl s = s := by
  intro s
  induction s with
  | nil => intro _; rfl
  | cons c rest ih =>
    intro h
    rw [subScan_nomatch m repl (by simpa using h 0), ih (fun i => by simpa using h (i + 1))]

/-! ### Invariants preserved by the substitutions -/

/-- Relation on adjacent characters: no whitespace character immediately
followed by a newline.  A string satisfying `List.Chain' RWs` admits no match
of `\s+\n` anywhere. -/
def RWs (a b : Char) : Prop := isWs a = true → b ≠ '\n'

/-- Relation on adjacent characters: no space or tab immediately followed by
a newline.  A string satisfying `List.Chain' RSt` admits no match of
`[ \t]+\n` anywhere. -/
def RSt (a b : Char) : Prop := isSpTab a = true → b ≠ '\n'

instance : DecidableRel RWs := fun a b =>
  inferInstanceAs (Decidable (isWs a = true → b ≠ '\n'))

instance : DecidableRel RSt := fun a b =>
  inferInstanceAs (Decidable (isSpTab a = true → b ≠ '\n'))

/-- Absence of three consecutive newlines, i.e. no match of `\n{3,}`. -/
def NoNl3 (s : Str) : Prop := ¬ ∃ u v, s = u ++ '\n' :: '\n' :: '\n' :: v

/-- The string begins with zero or more whitespace characters followed by a
newline (so a whitespace character in front of it creates a `\s+\n` match). -/
def WThen (s : Str) : Prop :=
  ∃ k : Nat, (∀ j, j < k → ∃ c, s[j]? = some c ∧ isWs c = true) ∧ s[k]? = some '\n'

/-- The string begins with zero or more spaces/tabs followed by a newline. -/
def WThenSt (s : Str) : Prop :=
  ∃ k : Nat, (∀ j, j < k → ∃ c, s[j]? = some c ∧ isSpTab c = true) ∧ s[k]? = some '\n'

theorem chain'_pair {R : Char → Char → Prop} :
    ∀ (s : Str) (i : Nat) {a b : Char}, List.Chain' R s →
      s[i]? = some a → s[i + 1]? = some b → R a b := by
  intro s
  induction s with
  | nil => intro i a b _ h; simp at h
  | cons x t ih =>
    intro i a b hc ha hb
    rcases List.chain'_cons'.mp hc with ⟨hhead, htail⟩
    cases i with
    | zero =>
      have hax : x = a := by simpa using ha
      cases t with
      | nil => simp at hb
      | cons y t' =>
        have hby : y = b := by simpa using hb
        subst hax
        subst hby
        exact hhead _ rfl
    | succ j =>
      exact ih j htail (by simpa using ha) (by simpa using hb)

theorem chain'_drop {R : Char → Char → Prop} {s : Str} (i : Nat)
    (h : List.Chain' R s) : List.Chain' R (s.drop i) := by
  have := List.take_append_drop i s
  rw [← this] at h
  exact (List.chain'_append.mp h).2.1

theorem chain'_of_decomp {R : Char → Char → Prop} {u m w : Str}
    (h : List.Chain' R (u ++ m ++ w)) : List.Chain' R m := by
  exact (List.chain'_append.mp (List.chain'_append.mp h).1).2.1

theorem noNl3_of_decomp {u m w : Str} (h : NoNl3 (u ++ m ++ w)) : NoNl3 m := by
  rintro ⟨a, b, rfl⟩
  exact h ⟨u ++ a, b ++ w, by simp⟩

theorem takeWhile_getElem? {p : Char → Bool} :
    ∀ (l : Str) (j : Nat) (c : Char), (l.takeWhile p)[j]? = some c →
      l[j]? = some c ∧ p c = true := by
  intro l
  induction l with
  | nil => intro j c h; simp at h
  | cons a l' ih =>
    intro j c h
    by_cases hp : p a
    · rw [List.takeWhile_cons_of_pos hp] at h
      cases j with
      | zero =>
        have : a = c := by simpa using h
        subst this
        exact ⟨by simp, hp⟩
      | succ j' =>
        have := ih j' c (by simpa using h)
        exact ⟨by simpa using this.1, this.2⟩
    · rw [List.takeWhile_cons_of_neg hp] at h
      simp at h

theorem takeWhile_length_eq {p : Char → Bool} :
    ∀ (k : Nat) (l : Str),
      (∀ j, j < k → ∃ c, l[j]? = some c ∧ p c = true) →
      (∀ d, l[k]? = some d → p d = false) →
      (l.takeWhile p).length = k ∨ l[k]? = none := by
  intro k
  induction k with
  | zero =>
    intro l _ hk
    cases l with
    | nil => exact Or.inr (by simp)
    | cons a l' =>
      left
      rw [List.takeWhile_cons_of_neg (by simpa using hk a (by simp))]
      rfl
  | succ k' ih =>
    intro l hlt hk
    have h0 := hlt 0 (Nat.succ_pos _)
    rcases h0 with ⟨c, hc, hpc⟩
    cases l with
    | nil => simp at hc
    | cons a l' =>
      have : a = c := by simpa using hc
      subst this
      rw [List.takeWhile_cons_of_pos hpc]
      have := ih l' (fun j hj => by simpa using hlt (j + 1) (Nat.succ_lt_succ hj))
        (fun d hd => hk d (by simpa using hd))
      rcases this with h | h
      · left; simp [h]
      · right; simpa using h

theorem drop_takeWhile_len {p : Char → Bool} :
    ∀ l : Str, l.drop (l.takeWhile p).length = l.dropWhile p := by
  intro l
  induction l with
  | nil => rfl
  | cons a l' ih =>
    by_cases hp : p a
    · rw [List.takeWhile_cons_of_pos hp, List.dropWhile_cons_of_pos hp]
      simpa using ih
    · rw [List.takeWhile_cons_of_neg hp, List.dropWhile_cons_of_neg hp]
      rfl

theorem dw_head {p : Char → Bool} :
    ∀ (l : Str) (c : Char), (l.dropWhile p).head? = some c → p c = false := by
  intro l
  induction l with
  | nil => intro c h; simp at h
  | cons a l' ih =>
    intro c h
    by_cases hp : p a
    · rw [List.dropWhile_cons_of_pos hp] at h
      exact ih c h
    · rw [List.dropWhile_cons_of_neg hp] at h
      have : a = c := by simpa using h
      subst this
      simpa using hp

/-! ### Properties of the `\s+\n` matcher -/

theorem lastNlPos_spec :
    ∀ (s : Str) (i : Nat), lastNlPos s = some i →
      s[i]? = some '\n' ∧ ∀ j, j < i → ∃ c, s[j]? = some c ∧ isWs c = true := by
  intro s
  induction s with
  | nil => intro i h; simp [lastNlPos] at h
  | cons c r ih =>
    intro i h
    rw [lastNlPos] at h
    by_cases hw : isWs c
    · rw [if_pos hw] at h
      cases hr : lastNlPos r with
      | some j =>
        rw [hr] at h
        simp only [Option.some.injEq] at h
        subst h
        rcases ih j hr with ⟨hj, hlt⟩
        refine ⟨by simpa using hj, ?_⟩
        intro j' hj'
        cases j' with
        | zero => exact ⟨c, by simp, hw⟩
        | succ j'' =>
          rcases hlt j'' (Nat.lt_of_succ_lt_succ hj') with ⟨d, hd, hdw⟩
          exact ⟨d, by simpa using hd, hdw⟩
      | none =>
        rw [hr] at h
        by_cases hn : c = '\n'
        · rw [if_pos hn] at h
          simp only [Option.some.injEq] at h
          subst h
          subst hn
          exact ⟨by simp, fun j hj => absurd hj (Nat.not_lt_zero j)⟩
        · rw [if_neg hn] at h
          cases h
    · rw [if_neg hw] at h
      cases h

theorem WThen_lastNlPos : ∀ s : Str, WThen s → ∃ i, lastNlPos s = some i := by
  intro s hw
  obtain ⟨k, hlt, hk⟩ := hw
  induction k generalizing s with
  | zero =>
    cases s with
    | nil => simp at hk
    | cons c r =>
      have hc : c = '\n' := by simpa using hk
      subst hc
      cases hr : lastNlPos r with
      | some j => exact ⟨j + 1, by simp [lastNlPos, hr, isWs]⟩
      | none => exact ⟨0, by simp [lastNlPos, hr, isWs]⟩
  | succ k' ih =>
    cases s with
    | nil => simp at hk
    | cons c r =>
      rcases hlt 0 (Nat.succ_pos _) with ⟨c₀, hc₀, hcw⟩
      have hcc : c = c₀ := by simpa using hc₀
      subst hcc
      obtain ⟨j, hj⟩ := ih r
        (fun j' hj' => by simpa using hlt (j' + 1) (Nat.succ_lt_succ hj'))
        (by simpa using hk)
      exact ⟨j + 1, by simp [lastNlPos, hj, hcw]⟩

theorem lastNlPos_none_not_WThen {s : Str} (h : lastNlPos s = none) : ¬ WThen s := by
  intro hw
  obtain ⟨i, hi⟩ := WThen_lastNlPos s hw
  rw [h] at hi
  cases hi

theorem mWsNl_of_ws_WThen {c : Char} {r : Str} (hc : isWs c = true) (hr : WThen r) :
    ∃ k, mWsNl (c :: r) = some k := by
  obtain ⟨j, hj⟩ := WThen_lastNlPos r hr
  refine ⟨j + 2, ?_⟩
  simp [mWsNl, lastNlPos, hj, hc]

theorem lastNlPos_drop_not_WThen :
    ∀ (s : Str) (i : Nat), lastNlPos s = some i → ¬ WThen (s.drop (i + 1)) := by
  intro s
  induction s with
  | nil => intro i h; simp [lastNlPos] at h
  | cons c r ih =>
    intro i h
    rw [lastNlPos] at h
    by_cases hw : isWs c
    · rw [if_pos hw] at h
      cases hr : lastNlPos r with
      | some j =>
        rw [hr] at h
        simp only [Option.some.injEq] at h
        subst h
        rw [List.drop_succ_cons]
        exact ih j hr
      | none =>
        rw [hr] at h
        by_cases hn : c = '\n'
        · rw [if_pos hn] at h
          simp only [Option.some.injEq] at h
          subst h
          simpa using lastNlPos_none_not_WThen hr
        · rw [if_neg hn] at h
          cases h
    · rw [if_neg hw] at h
      cases h

theorem mWsNl_some_spec {s : Str} {k : Nat} (h : mWsNl s = some k) :
    ∃ i, lastNlPos s = some i ∧ 1 ≤ i ∧ k = i + 1 := by
  unfold mWsNl at h
  cases hl : lastNlPos s with
  | none => rw [hl] at h; cases h
  | some i =>
    rw [hl] at h
    have h' : (if 1 ≤ i then some (i + 1) else none) = some k := h
    by_cases hi : 1 ≤ i
    · rw [if_pos hi] at h'
      simp only [Option.some.injEq] at h'
      exact ⟨i, rfl, hi, h'.symm⟩
    · rw [if_neg hi] at h'
      cases h'

/-! ### The first FAQ substitution leaves no whitespace before a newline -/

theorem faqScan_inv :
    ∀ (n : Nat) (s : Str), s.length ≤ n →
      List.Chain' RWs (subScan mWsNl ['\n'] s) ∧
      ((subScan mWsNl ['\n'] s).head? = some '\n' → WThen s) := by
  intro n
  induction n with
  | zero =>
    intro s hs
    have : s = [] := List.length_eq_zero.mp (Nat.le_zero.mp hs)
    subst this
    rw [subScan_nil]
    exact ⟨List.chain'_nil, by simp⟩
  | succ n ih =>
    intro s hs
    cases s with
    | nil =>
      rw [subScan_nil]
      exact ⟨List.chain'_nil, by simp⟩
    | cons c rest =>
      have hrlen : rest.length ≤ n := Nat.le_of_succ_le_succ (by simpa using hs)
      cases hm : mWsNl (c :: rest) with
      | none =>
        rw [subScan_nomatch _ _ hm]
        have hrest := ih rest hrlen
        constructor
        · refine List.chain'_cons'.mpr ⟨?_, hrest.1⟩
          intro y hy hcw hyn
          subst hyn
          have hw := hrest.2 hy
          obtain ⟨k, hk⟩ := mWsNl_of_ws_WThen hcw hw
          rw [hm] at hk
          cases hk
        · intro hh
          have hc : c = '\n' := by simpa using hh
          exact ⟨0, fun j hj => absurd hj (Nat.not_lt_zero _), by simp [hc]⟩
      | some k =>
        obtain ⟨i, hl, hi1, hk⟩ := mWsNl_some_spec hm
        rw [subScan_match _ _ hm, List.singleton_append]
        have hdrop : rest.drop (k - 1) = (c :: rest).drop (i + 1) := by
          subst hk
          simp [List.drop_succ_cons]
        have hlen : (rest.drop (k - 1)).length ≤ n :=
          le_trans (by simpa using Nat.sub_le _ _) hrlen
        have ht := ih (rest.drop (k - 1)) hlen
        constructor
        · refine List.chain'_cons'.mpr ⟨?_, ht.1⟩
          intro y hy _ hyn
          subst hyn
          have hw := ht.2 hy
          rw [hdrop] at hw
          exact lastNlPos_drop_not_WThen _ i hl hw
        · intro _
          rcases lastNlPos_spec _ i hl with ⟨hnl, hwlt⟩
          exact ⟨i, hwlt, hnl⟩

theorem faqScan_chain (s : Str) : List.Chain' RWs (subScan mWsNl ['\n'] s) :=
  (faqScan_inv s.length s le_rfl).1

theorem mWsNl_none_of_chain {t : Str} (h : List.Chain' RWs t) : mWsNl t = none := by
  cases hm : mWsNl t with
  | none => rfl
  | some k =>
    obtain ⟨i, hl, hi1, _⟩ := mWsNl_some_spec hm
    rcases lastNlPos_spec t i hl with ⟨hnl, hwlt⟩
    rcases hwlt (i - 1) (by omega) with ⟨c, hc, hcw⟩
    have hpair : RWs c '\n' :=
      chain'_pair t (i - 1) h hc (by rw [show i - 1 + 1 = i from by omega]; exact hnl)
    exact absurd rfl (hpair hcw)

theorem faqSub1_id {s : Str} (h : List.Chain' RWs s) : subScan mWsNl ['\n'] s = s :=
  subScan_id _ _ s (fun i => mWsNl_none_of_chain (chain'_drop i h))

/-! ### Properties of the `\n{3,}` matcher -/

theorem mNl3_some_spec {t : Str} {k : Nat} (h : mNl3 t = some k) :
    (t.takeWhile (fun c => c = '\n')).length = k ∧ 3 ≤ k := by
  unfold mNl3 at h
  by_cases h3 : 3 ≤ (t.takeWhile (fun c => c = '\n')).length
  · rw [if_pos h3] at h
    simp only [Option.some.injEq] at h
    exact ⟨h, h ▸ h3⟩
  · rw [if_neg h3] at h
    cases h

theorem mNl3_some_nl {t : Str} {k : Nat} (h : mNl3 t = some k) :
    ∀ j, j < k → t[j]? = some '\n' := by
  rcases mNl3_some_spec h with ⟨hlen, _⟩
  intro j hj
  have hjlt : j < (t.takeWhile (fun c => c = '\n')).length := hlen ▸ hj
  have := List.getElem?_eq_getElem hjlt
  rcases takeWhile_getElem? _ j _ this with ⟨ht, hp⟩
  have : (t.takeWhile (fun c => c = '\n'))[j] = '\n' := by simpa using hp
  rw [this] at ht
  exact ht

theorem mNl3_none_of_chainWs {t : Str} (h : List.Chain' RWs t) : mNl3 t = none := by
  cases hm : mNl3 t with
  | none => rfl
  | some k =>
    rcases mNl3_some_spec hm with ⟨_, h3⟩
    have h0 := mNl3_some_nl hm 0 (by omega)
    have h1 := mNl3_some_nl hm 1 (by omega)
    have hpair : RWs '\n' '\n' := chain'_pair t 0 h h0 h1
    exact absurd rfl (hpair (by decide))

theorem faqSub2_id {s : Str} (h : List.Chain' RWs s) :
    subScan mNl3 ['\n', '\n'] s = s :=
  subScan_id _ _ s (fun i => mNl3_none_of_chainWs (chain'_drop i h))

theorem faq_clean_eq (s : Str) :
    ExtractFaq.clean s = pstrip (subScan mWsNl ['\n'] s) := by
  unfold ExtractFaq.clean
  rw [faqSub2_id (faqScan_chain s)]

/-! ### Properties of the `[ \t]+\n` matcher and the page-content scan -/

theorem getElem?_zero_head (l : Str) : l[0]? = l.head? := by
  cases l <;> simp

theorem ws_of_st {a : Char} (h : isSpTab a = true) : isWs a = true := by
  unfold isSpTab at h
  unfold isWs
  rcases Bool.or_eq_true_iff.mp h with h' | h' <;> simp [h']

theorem mSpTabNl_some_spec {s : Str} {k : Nat} (h : mSpTabNl s = some k) :
    1 ≤ (s.takeWhile isSpTab).length ∧
      s[(s.takeWhile isSpTab).length]? = some '\n' ∧
      k = (s.takeWhile isSpTab).length + 1 := by
  unfold mSpTabNl at h
  simp only [] at h
  by_cases he : (s.takeWhile isSpTab).isEmpty
  · rw [if_pos he] at h
    cases h
  · rw [if_neg he] at h
    have hlen : 1 ≤ (s.takeWhile isSpTab).length := by
      cases hw : s.takeWhile isSpTab with
      | nil => rw [hw] at he; simp at he
      | cons a l => simp [hw]
    cases hg : s[(s.takeWhile isSpTab).length]? with
    | none => rw [hg] at h; cases h
    | some c =>
      rw [hg] at h
      have h' : (if c = '\n' then some ((s.takeWhile isSpTab).length + 1) else none)
          = some k := h
      by_cases hc : c = '\n'
      · rw [if_pos hc] at h'
        simp only [Option.some.injEq] at h'
        subst hc
        exact ⟨hlen, rfl, h'.symm⟩
      · rw [if_neg hc] at h'
        cases h'

theorem mSpTabNl_of_st_WThenSt {c : Char} {r : Str} (hc : isSpTab c = true)
    (hr : WThenSt r) : ∃ k, mSpTabNl (c :: r) = some k := by
  obtain ⟨k, hlt, hk⟩ := hr
  have hrun : (r.takeWhile isSpTab).length = k := by
    rcases takeWhile_length_eq k r hlt
      (fun d hd => by
        rw [hk] at hd
        have : '\n' = d := by simpa using hd
        subst this
        rfl) with h | h
    · exact h
    · rw [h] at hk; cases hk
  refine ⟨k + 2, ?_⟩
  simp [mSpTabNl, List.takeWhile_cons_of_pos hc, List.length_cons, hrun, hk]

theorem pageScan_inv :
    ∀ (n : Nat) (s : Str), s.length ≤ n →
      List.Chain' RSt (subScan mSpTabNl ['\n'] s) ∧
      ((subScan mSpTabNl ['\n'] s).head? = some '\n' → WThenSt s) := by
  intro n
  induction n with
  | zero =>
    intro s hs
    have : s = [] := List.length_eq_zero.mp (Nat.le_zero.mp hs)
    subst this
    rw [subScan_nil]
    exact ⟨List.chain'_nil, by simp⟩
  | succ n ih =>
    intro s hs
    cases s with
    | nil =>
      rw [subScan_nil]
      exact ⟨List.chain'_nil, by simp⟩
    | cons c rest =>
      have hrlen : rest.length ≤ n := Nat.le_of_succ_le_succ (by simpa using hs)
      cases hm : mSpTabNl (c :: rest) with
      | none =>
        rw [subScan_nomatch _ _ hm]
        have hrest := ih rest hrlen
        constructor
        · refine List.chain'_cons'.mpr ⟨?_, hrest.1⟩
          intro y hy hcw hyn
          subst hyn
          have hw := hrest.2 hy
          obtain ⟨k, hk⟩ := mSpTabNl_of_st_WThenSt hcw hw
          rw [hm] at hk
          cases hk
        · intro hh
          have hc : c = '\n' := by simpa using hh
          exact ⟨0, fun j hj => absurd hj (Nat.not_lt_zero _), by simp [hc]⟩
      | some k =>
        rcases mSpTabNl_some_spec hm with ⟨hrun1, hrunNl, hkval⟩
        rw [subScan_match _ _ hm, List.singleton_append]
        have hlen : (rest.drop (k - 1)).length ≤ n :=
          le_trans (by simpa using Nat.sub_le _ _) hrlen
        have ht := ih (rest.drop (k - 1)) hlen
        constructor
        · refine List.chain'_cons'.mpr ⟨?_, ht.1⟩
          intro y _ hst
          exact absurd hst (by decide)
        · intro _
          refine ⟨((c :: rest).takeWhile isSpTab).length, ?_, hrunNl⟩
          intro j hj
          have hjlen : j < ((c :: rest).takeWhile isSpTab).length := hj
          have hge := List.getElem?_eq_getElem hjlen
          rcases takeWhile_getElem? _ j _ hge with ⟨hsj, hst⟩
          exact ⟨_, hsj, hst⟩

theorem pageScan_chain (s : Str) : List.Chain' RSt (subScan mSpTabNl ['\n'] s) :=
  (pageScan_inv s.length s le_rfl).1

theorem mSpTabNl_none_of_chain {t : Str} (h : List.Chain' RSt t) :
    mSpTabNl t = none := by
  cases hm : mSpTabNl t with
  | none => rfl
  | some k =>
    rcases mSpTabNl_some_spec hm with ⟨hrun1, hrunNl, _⟩
    have hjlen : (t.takeWhile isSpTab).length - 1 < (t.takeWhile isSpTab).length := by
      omega
    have hge := List.getElem?_eq_getElem hjlen
    rcases takeWhile_getElem? _ _ _ hge with ⟨hsj, hst⟩
    have hpair : RSt _ '\n' := chain'_pair t ((t.takeWhile isSpTab).length - 1) h hsj
      (by rw [show (t.takeWhile isSpTab).length - 1 + 1 = (t.takeWhile isSpTab).length
            from by omega]
          exact hrunNl)
    exact absurd rfl (hpair hst)

theorem pageSub1_id {s : Str} (h : List.Chain' RSt s) : subScan mSpTabNl ['\n'] s = s :=
  subScan_id _ _ s (fun i => mSpTabNl_none_of_chain (chain'_drop i h))

/-! ### The `\n{3,}` substitution never leaves three consecutive newlines -/

theorem three_nl_decomp {t : Str} (h0 : t[0]? = some '\n') (h1 : t[1]? = some '\n')
    (h2 : t[2]? = some '\n') : ∃ v, t = '\n' :: '\n' :: '\n' :: v := by
  cases t with
  | nil => simp at h0
  | cons a t1 =>
    have : a = '\n' := by simpa using h0
    subst this
    cases t1 with
    | nil => simp at h1
    | cons b t2 =>
      have : b = '\n' := by simpa using h1
      subst this
      cases t2 with
      | nil => simp at h2
      | cons c t3 =>
        have : c = '\n' := by simpa using h2
        subst this
        exact ⟨t3, rfl⟩

theorem mNl3_of_three {t : Str} (h0 : t[0]? = some '\n') (h1 : t[1]? = some '\n')
    (h2 : t[2]? = some '\n') : ∃ k, mNl3 t = some k := by
  obtain ⟨v, rfl⟩ := three_nl_decomp h0 h1 h2
  unfold mNl3
  simp only [List.takeWhile_cons_of_pos (show (('\n' : Char) = '\n' : Bool) = true by decide)]
  set w := v.takeWhile (fun c => c = '\n') with hw
  refine ⟨w.length + 3, ?_⟩
  have : 3 ≤ ('\n' :: '\n' :: '\n' :: w).length := by simp
  rw [if_pos (by simpa using this)]
  simp

theorem mNl3_none_of_noNl3 {t : Str} (h : NoNl3 t) : mNl3 t = none := by
  cases hm : mNl3 t with
  | none => rfl
  | some k =>
    rcases mNl3_some_spec hm with ⟨_, h3⟩
    obtain ⟨v, rfl⟩ := three_nl_decomp (mNl3_some_nl hm 0 (by omega))
      (mNl3_some_nl hm 1 (by omega)) (mNl3_some_nl hm 2 (by omega))
    exact absurd ⟨[], v, rfl⟩ h

theorem noNl3_drop {s : Str} (i : Nat) (h : NoNl3 s) : NoNl3 (s.drop i) := by
  rintro ⟨u, v, heq⟩
  refine h ⟨s.take i ++ u, v, ?_⟩
  conv_lhs => rw [← List.take_append_drop i s]
  rw [heq, List.append_assoc]

theorem pageSub2_id {s : Str} (h : NoNl3 s) : subScan mNl3 ['\n', '\n'] s = s :=
  subScan_id _ _ s (fun i => mNl3_none_of_noNl3 (noNl3_drop i h))

theorem subNl3_head {t : Str} (h : (subScan mNl3 ['\n', '\n'] t).head? = some '\n') :
    t.head? = some '\n' := by
  cases t with
  | nil => rw [subScan_nil] at h; simp at h
  | cons c rest =>
    cases hm : mNl3 (c :: rest) with
    | none =>
      rw [subScan_nomatch _ _ hm] at h
      simpa using h
    | some k =>
      rcases mNl3_some_spec hm with ⟨_, h3⟩
      have h0 := mNl3_some_nl hm 0 (by omega)
      simpa using h0

theorem subNl3_two {t : Str}
    (h0 : (subScan mNl3 ['\n', '\n'] t)[0]? = some '\n')
    (h1 : (subScan mNl3 ['\n', '\n'] t)[1]? = some '\n') :
    t[0]? = some '\n' ∧ t[1]? = some '\n' := by
  cases t with
  | nil => rw [subScan_nil] at h0; simp at h0
  | cons c rest =>
    cases hm : mNl3 (c :: rest) with
    | none =>
      rw [subScan_nomatch _ _ hm] at h0
      rw [subScan_nomatch _ _ hm] at h1
      have hc : c = '\n' := by simpa using h0
      have h1' : (subScan mNl3 ['\n', '\n'] rest).head? = some '\n' := by
        rw [← getElem?_zero_head]
        simpa using h1
      have := subNl3_head h1'
      refine ⟨by simp [hc], ?_⟩
      rw [← getElem?_zero_head] at this
      simpa using this
    | some k =>
      rcases mNl3_some_spec hm with ⟨_, h3⟩
      exact ⟨mNl3_some_nl hm 0 (by omega), mNl3_some_nl hm 1 (by omega)⟩

theorem subNl3_drop_eq {c : Char} {rest : Str} {k : Nat}
    (hm : mNl3 (c :: rest) = some k) :
    rest.drop (k - 1) = (c :: rest).dropWhile (fun c => c = '\n') := by
  rcases mNl3_some_spec hm with ⟨hlen, h3⟩
  have : rest.drop (k - 1) = (c :: rest).drop k := by
    cases k with
    | zero => omega
    | succ k' => simp [List.drop_succ_cons]
  rw [this, ← hlen, drop_takeWhile_len]

theorem subNl3_noNl3 :
    ∀ (n : Nat) (t : Str), t.length ≤ n → NoNl3 (subScan mNl3 ['\n', '\n'] t) := by
  intro n
  induction n with
  | zero =>
    intro t ht
    have : t = [] := List.length_eq_zero.mp (Nat.le_zero.mp ht)
    subst this
    rw [subScan_nil]
    rintro ⟨u, v, heq⟩
    have hl := congrArg List.length heq
    simp only [List.length_nil, List.length_append, List.length_cons] at hl
    omega
  | succ n ih =>
    intro t ht
    cases t with
    | nil =>
      rw [subScan_nil]
      rintro ⟨u, v, heq⟩
      have hl := congrArg List.length heq
      simp only [List.length_nil, List.length_append, List.length_cons] at hl
      omega
    | cons c rest =>
      have hrlen : rest.length ≤ n := Nat.le_of_succ_le_succ (by simpa using ht)
      cases hm : mNl3 (c :: rest) with
      | none =>
        rw [subScan_nomatch _ _ hm]
        rintro ⟨u, v, heq⟩
        cases u with
        | nil =>
          simp only [List.nil_append, List.cons.injEq] at heq
          rcases heq with ⟨hc, hout⟩
          have h0 : (subScan mNl3 ['\n', '\n'] rest)[0]? = some '\n' := by
            rw [hout]; simp
          have h1 : (subScan mNl3 ['\n', '\n'] rest)[1]? = some '\n' := by
            rw [hout]; simp
          rcases subNl3_two h0 h1 with ⟨hr0, hr1⟩
          obtain ⟨k, hk⟩ := mNl3_of_three (t := c :: rest) (by simp [hc])
            (by simpa using hr0) (by simpa using hr1)
          rw [hm] at hk
          cases hk
        | cons x u' =>
          simp only [List.cons_append, List.cons.injEq] at heq
          exact ih rest hrlen ⟨u', v, heq.2⟩
      | some k =>
        rw [subScan_match _ _ hm]
        have hdw := subNl3_drop_eq hm
        have hdrop_head : ∀ d, (rest.drop (k - 1)).head? = some d → ¬ d = '\n' := by
          intro d hd
          rw [hdw] at hd
          have := dw_head _ _ hd
          simpa using this
        rintro ⟨u, v, heq⟩
        cases u with
        | nil =>
          simp only [List.nil_append, List.cons_append, List.cons.injEq] at heq
          rcases heq with ⟨_, _, hout⟩
          have : (subScan mNl3 ['\n', '\n'] (rest.drop (k - 1))).head? = some '\n' := by
            rw [hout]; simp
          have := subNl3_head this
          cases hh : (rest.drop (k - 1)).head? with
          | none => rw [hh] at this; cases this
          | some d =>
            rw [hh] at this
            exact hdrop_head d hh (by simpa using this)
        | cons x u' =>
          cases u' with
          | nil =>
            simp only [List.cons_append, List.nil_append, List.cons.injEq] at heq
            rcases heq with ⟨_, _, hout⟩
            have h0 : (subScan mNl3 ['\n', '\n'] (rest.drop (k - 1)))[0]? = some '\n' := by
              rw [hout]; simp
            have h1 : (subScan mNl3 ['\n', '\n'] (rest.drop (k - 1)))[1]? = some '\n' := by
              rw [hout]; simp
            rcases subNl3_two h0 h1 with ⟨hr0, _⟩
            rw [getElem?_zero_head] at hr0
            cases hh : (rest.drop (k - 1)).head? with
            | none => rw [hh] at hr0; cases hr0
            | some d =>
              rw [hh] at hr0
              exact hdrop_head d hh (by simpa using hr0)
          | cons y u'' =>
            simp only [List.cons_append, List.cons.injEq] at heq
            have hlen2 : (rest.drop (k - 1)).length ≤ n :=
              le_trans (by simpa using Nat.sub_le _ _) hrlen
            exact ih (rest.drop (k - 1)) hlen2 ⟨u'', v, heq.2.2⟩

theorem subNl3_chainSt :
    ∀ (n : Nat) (t : Str), t.length ≤ n → List.Chain' RSt t →
      List.Chain' RSt (subScan mNl3 ['\n', '\n'] t) := by
  intro n
  induction n with
  | zero =>
    intro t ht _
    have : t = [] := List.length_eq_zero.mp (Nat.le_zero.mp ht)
    subst this
    rw [subScan_nil]
    exact List.chain'_nil
  | succ n ih =>
    intro t ht hc
    cases t with
    | nil => rw [subScan_nil]; exact List.chain'_nil
    | cons c rest =>
      have hrlen : rest.length ≤ n := Nat.le_of_succ_le_succ (by simpa using ht)
      rcases List.chain'_cons'.mp hc with ⟨hhead, htail⟩
      cases hm : mNl3 (c :: rest) with
      | none =>
        rw [subScan_nomatch _ _ hm]
        refine List.chain'_cons'.mpr ⟨?_, ih rest hrlen htail⟩
        intro y hy hst hyn
        subst hyn
        have := subNl3_head hy
        exact (hhead '\n' this) hst rfl
      | some k =>
        rw [subScan_match _ _ hm]
        have hlen2 : (rest.drop (k - 1)).length ≤ n :=
          le_trans (by simpa using Nat.sub_le _ _) hrlen
        have hchain2 : List.Chain' RSt (rest.drop (k - 1)) := chain'_drop (k - 1) htail
        show List.Chain' RSt ('\n' :: '\n' :: subScan mNl3 ['\n', '\n'] (rest.drop (k - 1)))
        refine List.chain'_cons'.mpr ⟨?_, List.chain'_cons'.mpr
          ⟨?_, ih (rest.drop (k - 1)) hlen2 hchain2⟩⟩
        · intro y _ hst
          exact absurd hst (by decide)
        · intro y _ hst
          exact absurd hst (by decide)

/-! ### Facts about stripping -/

theorem rstrip_decomp (s : Str) :
    ∃ w, s = rstripWs s ++ w ∧ ∀ c ∈ w, isWs c = true := by
  refine ⟨(s.reverse.takeWhile isWs).reverse, ?_, ?_⟩
  · conv_lhs => rw [← List.reverse_reverse s,
      ← List.takeWhile_append_dropWhile (p := isWs) (l := s.reverse)]
    rw [List.reverse_append]
    rfl
  · intro c hc
    rw [List.mem_reverse] at hc
    exact List.mem_takeWhile_imp hc

theorem pstrip_decomp (s : Str) :
    ∃ u w, s = u ++ pstrip s ++ w ∧ (∀ c ∈ u, isWs c = true) ∧
      ∀ c ∈ w, isWs c = true := by
  obtain ⟨w, hw, hww⟩ := rstrip_decomp (s.dropWhile isWs)
  refine ⟨s.takeWhile isWs, w, ?_, fun c hc => List.mem_takeWhile_imp hc, hww⟩
  conv_lhs => rw [← List.takeWhile_append_dropWhile (p := isWs) (l := s), hw]
  rw [List.append_assoc]
  rfl

theorem head?_rstripWs {s : Str} (h : rstripWs s ≠ []) :
    (rstripWs s).head? = s.head? := by
  obtain ⟨w, hw, _⟩ := rstrip_decomp s
  conv_rhs => rw [hw]
  rw [List.head?_append]
  cases hh : (rstripWs s).head? with
  | none => exact absurd (List.head?_eq_none_iff.mp hh) h
  | some a => simp

theorem getLast?_rstripWs_not_ws {s : Str} {c : Char}
    (h : (rstripWs s).getLast? = some c) : isWs c = false := by
  unfold rstripWs at h
  rw [List.getLast?_reverse] at h
  exact dw_head _ _ h

theorem head?_pstrip_not_ws {s : Str} {c : Char}
    (h : (pstrip s).head? = some c) : isWs c = false := by
  unfold pstrip at h
  have hne : rstripWs (s.dropWhile isWs) ≠ [] := by
    intro hnil
    rw [hnil] at h
    cases h
  rw [head?_rstripWs hne] at h
  exact dw_head _ _ h

theorem getLast?_pstrip_not_ws {s : Str} {c : Char}
    (h : (pstrip s).getLast? = some c) : isWs c = false :=
  getLast?_rstripWs_not_ws h

theorem stripped_id {l : Str}
    (hh : ∀ c, l.head? = some c → isWs c = false)
    (hl : ∀ c, l.getLast? = some c → isWs c = false) : pstrip l = l := by
  have hdw : l.dropWhile isWs = l := by
    cases l with
    | nil => rfl
    | cons a l' => exact List.dropWhile_cons_of_neg (by simp [hh a rfl])
  have hrs : rstripWs l = l := by
    unfold rstripWs
    cases hrev : l.reverse with
    | nil =>
      have : l = [] := by simpa using congrArg List.reverse hrev
      rw [this]
      rfl
    | cons a rev' =>
      have ha : l.getLast? = some a := by
        rw [← List.head?_reverse, hrev]
        rfl
      rw [List.dropWhile_cons_of_neg (by simp [hl a ha]), ← hrev,
        List.reverse_reverse]
  unfold pstrip
  rw [hdw, hrs]

theorem pstrip_idem (s : Str) : pstrip (pstrip s) = pstrip s :=
  stripped_id (fun _ h => head?_pstrip_not_ws h) (fun _ h => getLast?_pstrip_not_ws h)

/-! ### Idempotence of the two normalizations -/

theorem faq_clean_idem (s : Str) :
    ExtractFaq.clean (ExtractFaq.clean s) = ExtractFaq.clean s := by
  rw [faq_clean_eq s]
  obtain ⟨u, w, hdecomp, _, _⟩ := pstrip_decomp (subScan mWsNl ['\n'] s)
  have hchain : List.Chain' RWs (pstrip (subScan mWsNl ['\n'] s)) :=
    chain'_of_decomp (hdecomp ▸ faqScan_chain s)
  unfold ExtractFaq.clean
  rw [faqSub1_id hchain, faqSub2_id hchain, pstrip_idem]

theorem page_clean_inv (s : Str) :
    List.Chain' RSt (subScan mNl3 ['\n', '\n'] (subScan mSpTabNl ['\n'] s)) ∧
      NoNl3 (subScan mNl3 ['\n', '\n'] (subScan mSpTabNl ['\n'] s)) :=
  ⟨subNl3_chainSt _ _ le_rfl (pageScan_chain s), subNl3_noNl3 _ _ le_rfl⟩

theorem page_clean_idem (s : Str) :
    ExtractPageContent.clean (ExtractPageContent.clean s) =
      ExtractPageContent.clean s := by
  obtain ⟨hchain, hno⟩ := page_clean_inv s
  show ExtractPageContent.clean
    (pstrip (subScan mNl3 ['\n', '\n'] (subScan mSpTabNl ['\n'] s))) = _
  obtain ⟨u, w, hdecomp, _, _⟩ :=
    pstrip_decomp (subScan mNl3 ['\n', '\n'] (subScan mSpTabNl ['\n'] s))
  have hchain' : List.Chain' RSt
      (pstrip (subScan mNl3 ['\n', '\n'] (subScan mSpTabNl ['\n'] s))) :=
    chain'_of_decomp (hdecomp ▸ hchain)
  have hno' : NoNl3
      (pstrip (subScan mNl3 ['\n', '\n'] (subScan mSpTabNl ['\n'] s))) :=
    noNl3_of_decomp (hdecomp ▸ hno)
  unfold ExtractPageContent.clean
  rw [pageSub1_id hchain', pageSub2_id hno', pstrip_idem]

/-- C9: whitespace normalization is idempotent — for every string `x`,
`clean(clean(x)) == clean(x)` holds both for the FAQ extractor's `clean`
(`src/extract_faq.py`) and for the page-content extractor's `clean`
(`src/extract_page_content.py`). -/
theorem c9_clean_idempotent (s : Str) :
    ExtractFaq.clean (ExtractFaq.clean s) = ExtractFaq.clean s ∧
      ExtractPageContent.clean (ExtractPageContent.clean s) =
        ExtractPageContent.clean s :=
  ⟨faq_clean_idem s, page_clean_idem s⟩

/-- C2 counterexample: the two `clean` functions are not the same function.
On the input `"a\n\n\nb"` the FAQ `clean` (regex `\s+\n`) collapses the three
newlines to a single one, while the page-content `clean` (regex `[ \t]+\n`)
leaves them to the `\n{3,}` pass, which produces two newlines. -/
theorem c2_counterexample :
    ExtractFaq.clean ('a' :: '\n' :: '\n' :: '\n' :: 'b' :: []) ≠
      ExtractPageContent.clean ('a' :: '\n' :: '\n' :: '\n' :: 'b' :: []) := by
  decide

/-- C2 (amended): the FAQ extractor's `clean` agrees with the page-content
extractor's `clean` on every string in which no whitespace character is
immediately followed by a newline; on other strings the two may differ. -/
theorem c2_cleans_agree {s : Str} (h : List.Chain' RWs s) :
    ExtractFaq.clean s = ExtractPageContent.clean s := by
  have hst : List.Chain' RSt s := h.imp (fun a b hr hsp => hr (ws_of_st hsp))
  unfold ExtractFaq.clean ExtractPageContent.clean
  rw [faqSub1_id h, pageSub1_id hst]

/-- Witness for the amended C2 at the concrete input `"ab\ncd"`. -/
theorem c2_cleans_agree_witness :
    List.Chain' RWs ('a' :: 'b' :: '\n' :: 'c' :: 'd' :: []) ∧
      ExtractFaq.clean ('a' :: 'b' :: '\n' :: 'c' :: 'd' :: []) =
        ExtractPageContent.clean ('a' :: 'b' :: '\n' :: 'c' :: 'd' :: []) := by
  have hch : List.Chain' RWs ('a' :: 'b' :: '\n' :: 'c' :: 'd' :: []) := by
    refine List.chain'_cons.mpr ⟨?_, List.chain'_cons.mpr ⟨?_,
      List.chain'_cons.mpr ⟨?_, List.chain'_cons.mpr
        ⟨?_, List.chain'_singleton _⟩⟩⟩⟩ <;> decide
  exact ⟨hch, c2_cleans_agree hch⟩

/-! ### Counting non-overlapping occurrences (Python `str.count`) -/

/-- Fuel-indexed scanner counting non-overlapping occurrences of `p` from
left to right.  `fuel ≥ s.length` suffices. -/
def countOccAux (p : Str) : Nat → Str → Nat
  | 0, _ => 0
  | _ + 1, [] => 0
  | fuel + 1, c :: r =>
    if beginsWith p (c :: r) then 1 + countOccAux p fuel (r.drop (p.length - 1))
    else countOccAux p fuel r

/-- Number of non-overlapping occurrences of the non-empty pattern `p` in `s`,
scanning left to right; models Python `s.count(p)` for non-empty `p`. -/
def countOcc (p s : Str) : Nat := countOccAux p s.length s

theorem countOccAux_nil (p : Str) (f : Nat) : countOccAux p f [] = 0 := by
  cases f <;> rfl

theorem countOccAux_fuel (p : Str) :
    ∀ f₁ f₂ s, s.length ≤ f₁ → s.length ≤ f₂ →
      countOccAux p f₁ s = countOccAux p f₂ s := by
  intro f₁
  induction f₁ with
  | zero =>
    intro f₂ s hs₁ _
    have : s = [] := List.length_eq_zero.mp (Nat.le_zero.mp hs₁)
    subst this
    rw [countOccAux_nil, countOccAux_nil]
  | succ f ih =>
    intro f₂ s hs₁ hs₂
    cases s with
    | nil => rw [countOccAux_nil, countOccAux_nil]
    | cons c rest =>
      cases f₂ with
      | zero => exact absurd hs₂ (by simp)
      | succ g =>
        have hr₁ : rest.length ≤ f := Nat.le_of_succ_le_succ (by simpa using hs₁)
        have hr₂ : rest.length ≤ g := Nat.le_of_succ_le_succ (by simpa using hs₂)
        show (if beginsWith p (c :: rest) then
            1 + countOccAux p f (rest.drop (p.length - 1))
          else countOccAux p f rest) =
          (if beginsWith p (c :: rest) then
            1 + countOccAux p g (rest.drop (p.length - 1))
          else countOccAux p g rest)
        by_cases hb : beginsWith p (c :: rest)
        · rw [if_pos hb, if_pos hb,
            ih g (rest.drop (p.length - 1))
              (le_trans (by simpa using Nat.sub_le _ _) hr₁)
              (le_trans (by simpa using Nat.sub_le _ _) hr₂)]
        · rw [if_neg hb, if_neg hb, ih g rest hr₁ hr₂]

theorem countOcc_cons_match (p : Str) {c : Char} {rest : Str}
    (h : beginsWith p (c :: rest) = true) :
    countOcc p (c :: rest) = 1 + countOcc p (rest.drop (p.length - 1)) := by
  show countOccAux p (rest.length + 1) (c :: rest) = _
  rw [show countOccAux p (rest.length + 1) (c :: rest) =
      (if beginsWith p (c :: rest) then
        1 + countOccAux p rest.length (rest.drop (p.length - 1))
      else countOccAux p rest.length rest) from rfl, if_pos h]
  unfold countOcc
  rw [countOccAux_fuel p rest.length (rest.drop (p.length - 1)).length
    (rest.drop (p.length - 1)) (by simpa using Nat.sub_le _ _) le_rfl]

theorem countOcc_cons_nomatch (p : Str) {c : Char} {rest : Str}
    (h : beginsWith p (c :: rest) = false) :
    countOcc p (c :: rest) = countOcc p rest := by
  show countOccAux p (rest.length + 1) (c :: rest) = _
  rw [show countOccAux p (rest.length + 1) (c :: rest) =
      (if beginsWith p (c :: rest) then
        1 + countOccAux p rest.length (rest.drop (p.length - 1))
      else countOccAux p rest.length rest) from rfl, if_neg (by simp [h])]
  rfl

theorem beginsWith_iff (p : Str) : ∀ s, beginsWith p s = true ↔ ∃ t, s = p ++ t := by
  induction p with
  | nil => intro s; simp [beginsWith]
  | cons a p' ih =>
    intro s
    cases s with
    | nil =>
      simp only [beginsWith]
      constructor
      · intro h; cases h
      · rintro ⟨t, ht⟩; cases ht
    | cons b s' =>
      simp only [beginsWith, Bool.and_eq_true, decide_eq_true_eq]
      constructor
      · rintro ⟨rfl, hb⟩
        obtain ⟨t, rfl⟩ := (ih s').mp hb
        exact ⟨t, rfl⟩
      · rintro ⟨t, ht⟩
        simp only [List.cons_append, List.cons.injEq] at ht
        exact ⟨ht.1.symm, (ih s').mpr ⟨t, ht.2⟩⟩

theorem beginsWith_append_mono {p x : Str} (y : Str)
    (h : beginsWith p x = true) : beginsWith p (x ++ y) = true := by
  obtain ⟨t, rfl⟩ := (beginsWith_iff p x).mp h
  exact (beginsWith_iff p _).mpr ⟨t ++ y, by simp⟩

theorem countOcc_zero_of_no_head {a : Char} {p' : Str} :
    ∀ s, (∀ c ∈ s, a ≠ c) → countOcc (a :: p') s = 0 := by
  intro s
  induction s with
  | nil => intro _; rfl
  | cons c r ih =>
    intro h
    have hb : beginsWith (a :: p') (c :: r) = false := by
      simp [beginsWith, h c (by simp)]
    rw [countOcc_cons_nomatch _ hb]
    exact ih (fun d hd => h d (by simp [hd]))

theorem countOcc_zero_of_not_contains {p : Str} :
    ∀ s, containsSub p s = false → countOcc p s = 0 := by
  intro s
  induction s with
  | nil => intro _; rfl
  | cons c r ih =>
    intro h
    unfold containsSub at h
    rcases Bool.or_eq_false_iff.mp h with ⟨hb, hr⟩
    rw [countOcc_cons_nomatch p hb]
    exact ih hr

theorem countOcc_self {p : Str} (hne : p ≠ []) : countOcc p p = 1 := by
  cases p with
  | nil => exact absurd rfl hne
  | cons a p' =>
    have hb : beginsWith (a :: p') (a :: p') = true :=
      (beginsWith_iff _ _).mpr ⟨[], by simp⟩
    rw [countOcc_cons_match _ hb]
    have : p'.drop ((a :: p').length - 1) = [] := by
      apply List.drop_eq_nil_of_le
      simp
    rw [this]
    rfl

/-! ### Occurrence counts split at barrier characters -/

theorem beginsWith_of_take {p x y : Str} (hlen : p.length ≤ x.length)
    (h : x ++ y = p ++ ((x ++ y).drop p.length)) : beginsWith p x = true := by
  have htake : (x ++ y).take p.length = p := by
    conv_lhs => rw [h]
    simp
  rw [List.take_append_of_le_length hlen] at htake
  refine (beginsWith_iff p x).mpr ⟨x.drop p.length, ?_⟩
  conv_lhs => rw [← List.take_append_drop p.length x]
  rw [htake]

theorem beginsWith_take_decomp {p s : Str} (h : beginsWith p s = true) :
    s = p ++ s.drop p.length := by
  obtain ⟨t, rfl⟩ := (beginsWith_iff p s).mp h
  simp

theorem countOcc_append_barrier {a b : Char} {p' : Str} (hb : b ∉ a :: p') :
    ∀ (n : Nat) (u v : Str), u.length ≤ n →
      countOcc (a :: p') (u ++ b :: v) =
        countOcc (a :: p') u + countOcc (a :: p') v := by
  intro n
  induction n with
  | zero =>
    intro u v hu
    have : u = [] := List.length_eq_zero.mp (Nat.le_zero.mp hu)
    subst this
    have hane : a ≠ b := fun h => hb (by simp [h])
    rw [List.nil_append, countOcc_cons_nomatch _ (by simp [beginsWith, hane]),
      show countOcc (a :: p') [] = 0 from rfl, Nat.zero_add]
  | succ n ih =>
    intro u v hu
    cases u with
    | nil =>
      have hane : a ≠ b := fun h => hb (by simp [h])
      rw [List.nil_append, countOcc_cons_nomatch _ (by simp [beginsWith, hane]),
        show countOcc (a :: p') [] = 0 from rfl, Nat.zero_add]
    | cons c u' =>
      have hu' : u'.length ≤ n := Nat.le_of_succ_le_succ (by simpa using hu)
      have hassoc : (c :: u') ++ b :: v = c :: (u' ++ b :: v) := rfl
      cases hm : beginsWith (a :: p') (c :: (u' ++ b :: v)) with
      | true =>
        have hdec := beginsWith_take_decomp hm
        have hple : (a :: p').length ≤ u'.length + 1 := by
          by_contra hgt
          push_neg at hgt
          have hidx : (c :: (u' ++ b :: v))[u'.length + 1]? = some b := by
            rw [show c :: (u' ++ b :: v) = (c :: u') ++ b :: v from rfl,
              List.getElem?_append_right (by simp)]
            simp
          have hidx2 : ((a :: p') ++ (c :: (u' ++ b :: v)).drop
              (a :: p').length)[u'.length + 1]? = some ((a :: p')[u'.length + 1]) := by
            have hlt : u'.length + 1 < (a :: p').length := hgt
            rw [List.getElem?_append_left hlt, List.getElem?_eq_getElem hlt]
          rw [hdec, hidx2] at hidx
          have : (a :: p')[u'.length + 1] = b := by simpa using hidx
          exact hb (this ▸ List.getElem_mem _)
        have hm' : beginsWith (a :: p') (c :: u') = true :=
          beginsWith_of_take (by simpa using hple) hdec
        rw [hassoc, countOcc_cons_match _ hm, countOcc_cons_match _ hm']
        have hd : (u' ++ b :: v).drop ((a :: p').length - 1) =
            u'.drop ((a :: p').length - 1) ++ b :: v :=
          List.drop_append_of_le_length (by simpa using Nat.le_of_succ_le_succ hple)
        rw [hd, ih ((u'.drop ((a :: p').length - 1))) v
          (le_trans (by simpa using Nat.sub_le _ _) hu')]
        omega
      | false =>
        have hm' : beginsWith (a :: p') (c :: u') = false := by
          cases hcm : beginsWith (a :: p') (c :: u') with
          | false => rfl
          | true =>
            have := beginsWith_append_mono (b :: v) hcm
            rw [show (c :: u') ++ b :: v = c :: (u' ++ b :: v) from rfl, hm] at this
            cases this
        rw [hassoc, countOcc_cons_nomatch _ hm, countOcc_cons_nomatch _ hm',
          ih u' v hu']

theorem countOcc_append_all_right {a : Char} {p' : Str} {q : Char → Bool}
    (hq : ∀ c ∈ (a :: p'), q c = false) :
    ∀ (n : Nat) (u w : Str), u.length ≤ n → (∀ c ∈ w, q c = true) →
      countOcc (a :: p') (u ++ w) = countOcc (a :: p') u := by
  have hbase : ∀ w : Str, (∀ c ∈ w, q c = true) → countOcc (a :: p') w = 0 := by
    intro w hw
    refine countOcc_zero_of_no_head w (fun c hc hac => ?_)
    subst hac
    have h2 := hw a hc
    rw [hq a (by simp)] at h2
    exact Bool.noConfusion h2
  intro n
  induction n with
  | zero =>
    intro u w hu hw
    have : u = [] := List.length_eq_zero.mp (Nat.le_zero.mp hu)
    subst this
    rw [List.nil_append, hbase w hw]
    rfl
  | succ n ih =>
    intro u w hu hw
    cases u with
    | nil =>
      rw [List.nil_append, hbase w hw]
      rfl
    | cons c u' =>
      have hu' : u'.length ≤ n := Nat.le_of_succ_le_succ (by simpa using hu)
      have hassoc : (c :: u') ++ w = c :: (u' ++ w) := rfl
      cases hm : beginsWith (a :: p') (c :: (u' ++ w)) with
      | true =>
        have hdec := beginsWith_take_decomp hm
        have hple : (a :: p').length ≤ u'.length + 1 := by
          by_contra hgt
          push_neg at hgt
          have hlenge : (a :: p').length ≤ (c :: (u' ++ w)).length := by
            conv_rhs => rw [hdec]
            simp
          have h1 : (c :: (u' ++ w)).length = u'.length + 1 + w.length := by
            simp only [List.length_cons, List.length_append]
            omega
          have hwpos : 0 < w.length := by omega
          cases hg : w[0]? with
          | none =>
            have := List.getElem?_eq_getElem hwpos
            rw [hg] at this
            cases this
          | some w0 =>
            have hw0mem : w0 ∈ w := List.getElem?_mem hg
            have hidx : (c :: (u' ++ w))[u'.length + 1]? = some w0 := by
              rw [show c :: (u' ++ w) = (c :: u') ++ w from rfl,
                List.getElem?_append_right (by simp)]
              simpa using hg
            have hidx2 : ((a :: p') ++ (c :: (u' ++ w)).drop
                (a :: p').length)[u'.length + 1]? =
                some ((a :: p')[u'.length + 1]) := by
              rw [List.getElem?_append_left hgt, List.getElem?_eq_getElem hgt]
            rw [hdec, hidx2] at hidx
            have heq : (a :: p')[u'.length + 1] = w0 := by simpa using hidx
            have hpm : w0 ∈ (a :: p') := heq ▸ List.getElem_mem hgt
            have h2 := hw _ hw0mem
            rw [hq _ hpm] at h2
            exact Bool.noConfusion h2
        have hm' : beginsWith (a :: p') (c :: u') = true :=
          beginsWith_of_take (by simpa using hple) hdec
        rw [hassoc, countOcc_cons_match _ hm, countOcc_cons_match _ hm']
        have hd : (u' ++ w).drop ((a :: p').length - 1) =
            u'.drop ((a :: p').length - 1) ++ w :=
          List.drop_append_of_le_length (by simpa using Nat.le_of_succ_le_succ hple)
        rw [hd, ih ((u'.drop ((a :: p').length - 1))) w
          (le_trans (by simpa using Nat.sub_le _ _) hu') hw]
      | false =>
        have hm' : beginsWith (a :: p') (c :: u') = false := by
          cases hcm : beginsWith (a :: p') (c :: u') with
          | false => rfl
          | true =>
            have := beginsWith_append_mono w hcm
            rw [show (c :: u') ++ w = c :: (u' ++ w) from rfl, hm] at this
            cases this
        rw [hassoc, countOcc_cons_nomatch _ hm, countOcc_cons_nomatch _ hm',
          ih u' w hu' hw]

/-! ### The FAQ corpus writer, combiner and separator counter -/

/-- Model of Python `sep.join(parts)`. -/
def joinSep (sep : Str) : List Str → Str
  | [] => []
  | [x] => x
  | x :: y :: t => x ++ sep ++ joinSep sep (y :: t)

namespace ExtractFaq

/-- The `SEPARATOR` constant of `src/extract_faq.py` (27 dashes). -/
def SEPARATOR : Str := List.replicate 27 '-'

/-- Model of `write_qa_txt` from `src/extract_faq.py` (lines 49-60): for each
pair append the separator, the question, a blank line, the answer and a blank
line; join the parts with newlines and strip trailing whitespace.  Writing the
resulting text to `out_path` is filesystem glue; the model returns the text. -/
def write_qa_txt (qaPairs : List (Str × Str)) : Str :=
  rstripWs (joinSep ['\n']
    (qaPairs.flatMap (fun qa => [SEPARATOR, qa.1, [], qa.2, []])))

/-- Model of `combine_faq_txt` from `src/extract_faq.py` (lines 63-72): the
combined file contents are the per-page file contents joined by a blank line
(`"\n\n".join`).  Globbing and sorting the `*_faq.txt` files is filesystem
glue; the model takes the list of per-page texts in that order. -/
def combine_faq_txt (texts : List Str) : Str := joinSep ['\n', '\n'] texts

/-- Model of `count_questions_in_combined` from `src/extract_faq.py`
(lines 75-78): `text.count(SEPARATOR)`. -/
def count_questions_in_combined (text : Str) : Nat := countOcc SEPARATOR text

end ExtractFaq

theorem sep_cons : ExtractFaq.SEPARATOR = '-' :: List.replicate 26 '-' := rfl

theorem countOcc_joinNl1 {a : Char} {p' : Str} (hnl : ('\n' : Char) ∉ a :: p') :
    ∀ parts : List Str,
      countOcc (a :: p') (joinSep ['\n'] parts) =
        (parts.map (countOcc (a :: p'))).sum := by
  intro parts
  induction parts with
  | nil => rfl
  | cons x parts ih =>
    cases parts with
    | nil => simp [joinSep]
    | cons y t =>
      rw [show joinSep ['\n'] (x :: y :: t) = x ++ '\n' :: joinSep ['\n'] (y :: t)
        from by simp [joinSep]]
      rw [countOcc_append_barrier hnl x.length x _ le_rfl, ih]
      simp

theorem countOcc_joinNl2 {a : Char} {p' : Str} (hnl : ('\n' : Char) ∉ a :: p') :
    ∀ parts : List Str,
      countOcc (a :: p') (joinSep ['\n', '\n'] parts) =
        (parts.map (countOcc (a :: p'))).sum := by
  intro parts
  induction parts with
  | nil => rfl
  | cons x parts ih =>
    cases parts with
    | nil => simp [joinSep]
    | cons y t =>
      rw [show joinSep ['\n', '\n'] (x :: y :: t) =
          x ++ '\n' :: ('\n' :: joinSep ['\n', '\n'] (y :: t))
        from by simp [joinSep]]
      rw [countOcc_append_barrier hnl x.length x _ le_rfl]
      have hne : a ≠ '\n' := fun h => hnl (by simp [h])
      rw [countOcc_cons_nomatch _ (by simp [beginsWith, hne]), ih]
      simp

theorem countOcc_rstrip {a : Char} {p' : Str}
    (hws : ∀ c ∈ (a :: p'), isWs c = false) (s : Str) :
    countOcc (a :: p') (rstripWs s) = countOcc (a :: p') s := by
  obtain ⟨w, hw, hww⟩ := rstrip_decomp s
  conv_rhs => rw [hw]
  rw [countOcc_append_all_right hws (rstripWs s).length (rstripWs s) w le_rfl hww]

theorem countOcc_write_qa {pg : List (Str × Str)}
    (h : ∀ qa ∈ pg, containsSub ExtractFaq.SEPARATOR qa.1 = false ∧
      containsSub ExtractFaq.SEPARATOR qa.2 = false) :
    countOcc ExtractFaq.SEPARATOR (ExtractFaq.write_qa_txt pg) = pg.length := by
  unfold ExtractFaq.write_qa_txt
  rw [sep_cons, countOcc_rstrip (by decide), countOcc_joinNl1 (by decide)]
  rw [← sep_cons]
  induction pg with
  | nil => rfl
  | cons qa rest ih =>
    rcases h qa (by simp) with ⟨hq, ha⟩
    rw [List.flatMap_cons, List.map_append, List.sum_append,
      ih (fun qb hb => h qb (by simp [hb]))]
    have hsep : countOcc ExtractFaq.SEPARATOR ExtractFaq.SEPARATOR = 1 :=
      countOcc_self (by decide)
    have hq0 : countOcc ExtractFaq.SEPARATOR qa.1 = 0 :=
      countOcc_zero_of_not_contains qa.1 hq
    have ha0 : countOcc ExtractFaq.SEPARATOR qa.2 = 0 :=
      countOcc_zero_of_not_contains qa.2 ha
    have hnil : countOcc ExtractFaq.SEPARATOR [] = 0 := rfl
    simp [hsep, hq0, ha0, hnil]
    omega

/-- C3: for every list of per-page QA-pair lists in which no question or
answer contains the separator token as a substring, writing each page with
`write_qa_txt`, combining the page texts with `combine_faq_txt` and counting
separator occurrences with `count_questions_in_combined` yields exactly the
sum of the per-page QA-pair counts. -/
theorem c3_combined_separator_count (pages : List (List (Str × Str)))
    (h : ∀ pg ∈ pages, ∀ qa ∈ pg,
      containsSub ExtractFaq.SEPARATOR qa.1 = false ∧
      containsSub ExtractFaq.SEPARATOR qa.2 = false) :
    ExtractFaq.count_questions_in_combined
        (ExtractFaq.combine_faq_txt (pages.map ExtractFaq.write_qa_txt)) =
      (pages.map List.length).sum := by
  unfold ExtractFaq.count_questions_in_combined ExtractFaq.combine_faq_txt
  rw [show countOcc ExtractFaq.SEPARATOR
        (joinSep ['\n', '\n'] (pages.map ExtractFaq.write_qa_txt)) =
      ((pages.map ExtractFaq.write_qa_txt).map
        (countOcc ExtractFaq.SEPARATOR)).sum from by
    rw [sep_cons]
    exact countOcc_joinNl2 (by decide) _]
  rw [List.map_map]
  induction pages with
  | nil => rfl
  | cons pg rest ih =>
    rw [List.map_cons, List.sum_cons, List.map_cons, List.sum_cons,
      ih (fun pb hb => h pb (by simp [hb]))]
    have := countOcc_write_qa (h pg (by simp))
    simp only [Function.comp_apply, this]

/-- Witness for C3 at two concrete pages with one QA pair each. -/
theorem c3_combined_separator_count_witness :
    (∀ pg ∈ [[((['q'] : Str), (['a'] : Str))], [(['x'], ['y'])]], ∀ qa ∈ pg,
      containsSub ExtractFaq.SEPARATOR qa.1 = false ∧
      containsSub ExtractFaq.SEPARATOR qa.2 = false) ∧
    ExtractFaq.count_questions_in_combined
        (ExtractFaq.combine_faq_txt
          ([[((['q'] : Str), (['a'] : Str))], [(['x'], ['y'])]].map
            ExtractFaq.write_qa_txt)) =
      ([[((['q'] : Str), (['a'] : Str))], [(['x'], ['y'])]].map List.length).sum :=
  ⟨by decide, c3_combined_separator_count _ (by decide)⟩

/-! ### The exact format written by `write_qa_txt` -/

/-- Formalization of the format stated by the specification for C10: every
pair contributes a separator line, the question, a blank line, the answer and
a blank line, the parts being joined by newlines. -/
def qa_spec_format (qaPairs : List (Str × Str)) : Str :=
  joinSep ['\n']
    (qaPairs.flatMap (fun qa => [ExtractFaq.SEPARATOR, qa.1, [], qa.2, []]))

theorem joinSep_append_last (sep : Str) :
    ∀ (jq : List Str) (x : Str), jq ≠ [] →
      joinSep sep (jq ++ [x]) = joinSep sep jq ++ sep ++ x := by
  intro jq
  induction jq with
  | nil => intro x hx; exact absurd rfl hx
  | cons y t ih =>
    intro x _
    cases t with
    | nil => simp [joinSep]
    | cons z t' =>
      rw [show (y :: z :: t') ++ [x] = y :: ((z :: t') ++ [x]) from rfl]
      rw [show joinSep sep (y :: ((z :: t') ++ [x])) =
          y ++ sep ++ joinSep sep ((z :: t') ++ [x]) from by
        cases ht : (z :: t') ++ [x] with
        | nil => simp at ht
        | cons w ws => rw [← ht]; simp [joinSep]]
      rw [ih x (by simp), show joinSep sep (y :: z :: t') =
        y ++ sep ++ joinSep sep (z :: t') from by simp [joinSep]]
      simp [List.append_assoc]

theorem rstrip_append_nl {X : Str} {c : Char} (hc : X.getLast? = some c)
    (hw : isWs c = false) : rstripWs (X ++ ['\n']) = X := by
  unfold rstripWs
  rw [List.reverse_append]
  rw [show (['\n'] : Str).reverse = ['\n'] from rfl]
  rw [show (['\n'] : Str) ++ X.reverse = '\n' :: X.reverse from rfl]
  rw [List.dropWhile_cons_of_pos (by decide)]
  cases hrev : X.reverse with
  | nil =>
    have : X = [] := by simpa using congrArg List.reverse hrev
    rw [this] at hc
    cases hc
  | cons d rev' =>
    have hd : d = c := by
      have := List.head?_reverse X
      rw [hrev] at this
      rw [hc] at this
      simpa using this
    rw [List.dropWhile_cons_of_neg (by simp [hd, hw]), ← hrev,
      List.reverse_reverse]

/-- C10 counterexample: for the single pair `("q", "a")`, `write_qa_txt` does
not produce the claimed format — the final trailing blank line is removed by
`rstrip()`. -/
theorem c10_counterexample :
    ExtractFaq.write_qa_txt [((['q'] : Str), (['a'] : Str))] ≠
      qa_spec_format [((['q'] : Str), (['a'] : Str))] := by
  decide

/-- C10 (amended): on a non-empty pair list whose final answer does not end
in whitespace (as is the case for cleaned answers), `write_qa_txt` produces
exactly the claimed separator/question/blank/answer/blank format, except that
the final blank line is absent (stripped by `rstrip()`). -/
theorem c10_write_qa_format (init : List (Str × Str)) (q a : Str) (c : Char)
    (hc : a.getLast? = some c) (hw : isWs c = false) :
    ExtractFaq.write_qa_txt (init ++ [(q, a)]) =
      joinSep ['\n']
        (((init ++ [(q, a)]).flatMap
          (fun qa => [ExtractFaq.SEPARATOR, qa.1, [], qa.2, []])).dropLast) := by
  unfold ExtractFaq.write_qa_txt
  rw [List.flatMap_append]
  rw [show ([((q : Str), (a : Str))] : List (Str × Str)).flatMap
      (fun qa => [ExtractFaq.SEPARATOR, qa.1, [], qa.2, []]) =
    [ExtractFaq.SEPARATOR, q, [], a, []] from rfl]
  set F := init.flatMap (fun qa => [ExtractFaq.SEPARATOR, qa.1, [], qa.2, []]) with hF
  rw [show F ++ [ExtractFaq.SEPARATOR, q, [], a, []] =
    (F ++ [ExtractFaq.SEPARATOR, q, [], a]) ++ [([] : Str)] from by simp]
  rw [joinSep_append_last _ _ _ (by simp), List.dropLast_concat]
  rw [List.append_nil]
  have hQ : F ++ [ExtractFaq.SEPARATOR, q, [], a] =
      (F ++ [ExtractFaq.SEPARATOR, q, []]) ++ [a] := by simp
  have hlast : (joinSep ['\n'] (F ++ [ExtractFaq.SEPARATOR, q, [], a])).getLast? =
      some c := by
    rw [hQ, joinSep_append_last _ _ _ (by simp)]
    rw [List.append_assoc]
    rw [List.getLast?_append_of_ne_nil _ (by
      intro hnil
      rw [show (['\n'] : Str) ++ a = '\n' :: a from rfl] at hnil
      cases hnil)]
    rw [show (['\n'] : Str) ++ a = '\n' :: a from rfl]
    cases ha : a with
    | nil => rw [ha] at hc; cases hc
    | cons a0 arest =>
      rw [← ha]
      have : ('\n' :: a).getLast? = a.getLast? := by
        rw [show '\n' :: a = ['\n'] ++ a from rfl,
          List.getLast?_append_of_ne_nil _ (by simp [ha])]
      rw [this, hc]
  exact rstrip_append_nl hlast hw

/-- Witness for the amended C10 at the single pair `("q", "a")`. -/
theorem c10_write_qa_format_witness :
    (['a'] : Str).getLast? = some 'a' ∧ isWs 'a' = false ∧
      ExtractFaq.write_qa_txt ([] ++ [((['q'] : Str), (['a'] : Str))]) =
        joinSep ['\n']
          ((([] ++ [((['q'] : Str), (['a'] : Str))]).flatMap
            (fun qa => [ExtractFaq.SEPARATOR, qa.1, [], qa.2, []])).dropLast) :=
  ⟨rfl, by decide, c10_write_qa_format [] ['q'] ['a'] 'a' rfl (by decide)⟩

/-! ### A model of the parsed HTML document.

`BeautifulSoup(html, "html.parser")` parses any input permissively into a
tree of elements and text; the extraction functions only ever inspect tag
names, the `id` and `class` and `href` attributes, the children and the
document order, so a parsed document is modelled as a forest of nodes
carrying exactly those. -/

/-- A parsed HTML node: a text node, or an element with tag name, optional
`id` attribute, `class` token list, optional `href` attribute and children. -/
inductive Node where
  | text (s : Str)
  | elem (tag : Str) (idAttr : Option Str) (classes : List Str)
      (href : Option Str) (children : List Node)

mutual

/-- Document-order (pre-order) listing of a node and all its descendants;
each element node keeps its subtree.  In BeautifulSoup a node is followed in
document order first by its descendants and then by everything after it. -/
def preorderN : Node → List Node
  | .text s => [.text s]
  | .elem t i cs h ch => .elem t i cs h ch :: preorder ch

/-- Document-order (pre-order) listing of all nodes of a forest. -/
def preorder : List Node → List Node
  | [] => []
  | n :: r => preorderN n ++ preorder r

end

mutual

/-- All text-node strings of a subtree in document order. -/
def textsOfN : Node → List Str
  | .text s => [s]
  | .elem _ _ _ _ ch => textsOf ch

/-- All text-node strings of a forest in document order. -/
def textsOf : List Node → List Str
  | [] => []
  | n :: r => textsOfN n ++ textsOf r

end

/-- Model of `get_text(sep, strip=True)` over a forest: each descendant
string is stripped, strings that strip to empty are dropped, and the rest
are joined by `sep`. -/
def getTexts (sep : Str) (ns : List Node) : Str :=
  joinSep sep (((textsOf ns).map pstrip).filter (fun t => !t.isEmpty))

/-- Model of `n.get_text(sep, strip=True)`. -/
def getText (sep : Str) (n : Node) : Str := getTexts sep [n]

/-- Tag-name selector (e.g. `"main"`, `"article"`, `"section"`, `"h6"`). -/
def tagIs (t : Str) : Node → Bool
  | .text _ => false
  | .elem tag _ _ _ _ => tag = t

/-- The CSS selector `div[id*='content']`: a `div` whose `id` attribute
exists and contains `"content"` as a substring. -/
def divIdContent : Node → Bool
  | .elem tag (some idv) _ _ _ =>
    tag = "div".toList && containsSub "content".toList idv
  | _ => false

/-- The CSS selector `div[class*='content']`: a `div` whose `class`
attribute (the space-joined token list) contains `"content"` as a
substring. -/
def divClassContent : Node → Bool
  | .elem tag _ classes _ _ =>
    tag = "div".toList && containsSub "content".toList (joinSep [' '] classes)
  | .text _ => false

/-- The CSS selector `section#accordion`. -/
def isAccordionSection : Node → Bool
  | .elem tag (some idv) _ _ _ =>
    tag = "section".toList && idv = "accordion".toList
  | _ => false

/-- The h6 heading selector. -/
def isH6 : Node → Bool := tagIs "h6".toList

/-- The filter `("div", class_="richText")` of `find_next`: a `div` carrying
the class token `richText`. -/
def isRichTextDiv : Node → Bool
  | .elem tag _ classes _ _ =>
    tag = "div".toList && classes.contains "richText".toList
  | .text _ => false

/-- Model of `soup.select(sel)` for a simple selector predicate: all matching
nodes of the document in document order. -/
def selectAll (p : Node → Bool) (doc : List Node) : List Node :=
  (preorder doc).filter p

mutual

/-- Tree effect of decomposing every matching element within one subtree:
the node is dropped entirely when it matches, and otherwise pruned
recursively. -/
def removeAllN (p : Node → Bool) : Node → List Node
  | .text s => [.text s]
  | .elem t i cs h ch =>
    if p (.elem t i cs h ch) then [] else [.elem t i cs h (removeAll p ch)]

/-- Tree effect of `for el in soup.select(sel): el.decompose()` for a
tag-name selector: every subtree rooted at a matching element is removed. -/
def removeAll (p : Node → Bool) : List Node → List Node
  | [] => []
  | n :: r => removeAllN p n ++ removeAll p r

end

mutual

/-- Document-order search within one subtree for the first node satisfying
`p`; `after` is the document-order context following the subtree.  On
success, returns the node together with the document-order list of its
descendants and the document-order list of everything after its subtree. -/
def selectOneCtxN (p : Node → Bool) :
    Node → List Node → Option (Node × List Node × List Node)
  | .text _, _ => none
  | .elem t i cs h ch, after =>
    if p (.elem t i cs h ch) then some (.elem t i cs h ch, preorder ch, after)
    else selectOneCtx p ch after

/-- Document-order search for the first node of a forest satisfying `p`;
models `soup.select_one(sel)` together with the context that `find_next`
scans.  `after` is the document-order context following the forest. -/
def selectOneCtx (p : Node → Bool) :
    List Node → List Node → Option (Node × List Node × List Node)
  | [], _ => none
  | n :: r, after =>
    match selectOneCtxN p n (preorder r ++ after) with
    | some res => some res
    | none => selectOneCtx p r after

end

namespace ExtractPageContent

/-- The `REMOVE_SELECTORS` constant of `src/extract_page_content.py`
(lines 13-17); all entries are plain tag-name selectors. -/
def REMOVE_SELECTORS : List Str :=
  ["header", "nav", "footer", "script", "style", "noscript", "form", "svg"].map
    String.toList

/-- The boilerplate-removal loop of `extract_main_text` (lines 66-68). -/
def removeBoilerplate (doc : List Node) : List Node :=
  REMOVE_SELECTORS.foldl (fun d t => removeAll (tagIs t) d) doc

/-- The fixed selector list of `best_text_container` (lines 41-47), in
order. -/
def selectors : List (Node → Bool) :=
  [tagIs "main".toList, tagIs "article".toList, divIdContent, divClassContent,
    tagIs "section".toList]

/-- The candidate collection loop of `best_text_container` (lines 49-53):
for each selector in order, for each matching element in document order,
compute `el.get_text(" ", strip=True)` and keep `(len(txt), el)` when the
text is non-empty. -/
def candidates (doc : List Node) : List (Nat × Node) :=
  selectors.flatMap (fun p =>
    (selectAll p doc).filterMap (fun el =>
      let txt := getText [' '] el
      if txt.isEmpty then none else some (txt.length, el)))

/-- Stable insertion for the descending sort: an entry is placed before the
first entry whose key is not larger. -/
def insertDesc (x : Nat × Node) : List (Nat × Node) → List (Nat × Node)
  | [] => [x]
  | y :: ys => if y.1 ≤ x.1 then x :: y :: ys else y :: insertDesc x ys

/-- Stable sort by descending key; models Python's stable
`candidates.sort(key=lambda x: x[0], reverse=True)`, under which entries
with equal keys keep their original relative order. -/
def sortDesc : List (Nat × Node) → List (Nat × Node)
  | [] => []
  | x :: xs => insertDesc x (sortDesc xs)

/-- The value returned by `best_text_container`: a node, or the whole
document (`soup`) when there are no candidates and no `body` element. -/
inductive Chosen where
  | node (n : Node)
  | whole (doc : List Node)

/-- Model of `soup.body`: the first `body` element in document order. -/
def docBody (doc : List Node) : Option Node :=
  (preorder doc).find? (tagIs "body".toList)

/-- Model of `best_text_container` (lines 33-59): if there are no candidates,
fall back to `soup.body or soup`; otherwise sort the candidates stably by
descending text length and take the first. -/
def best_text_container (doc : List Node) : Chosen :=
  if (candidates doc).isEmpty then
    match docBody doc with
    | some b => .node b
    | none => .whole doc
  else
    match sortDesc (candidates doc) with
    | c :: _ => .node c.2
    | [] => .whole doc

/-- `get_text` on the chosen container (`soup.get_text` when the whole
document was chosen). -/
def getTextChosen (sep : Str) : Chosen → Str
  | .node n => getText sep n
  | .whole doc => getTexts sep doc

/-- Model of `extract_main_text` (lines 62-74): remove boilerplate, pick the
best container, extract its text with newline separators and clean it.
Parsing the raw HTML string is BeautifulSoup glue; the model takes the
parsed document. -/
def extract_main_text (doc : List Node) : Str :=
  clean (getTextChosen ['\n'] (best_text_container (removeBoilerplate doc)))

/-- Specification-side description of the choice: the maximal candidate text
length. -/
def maxLen (cs : List (Nat × Node)) : Nat := (cs.map Prod.fst).foldr max 0

/-- Specification-side description of the choice: the first candidate (in
collection order) attaining the maximal text length. -/
def firstMax (cs : List (Nat × Node)) : Option (Nat × Node) :=
  cs.find? (fun c => c.1 = maxLen cs)

/-- The container the specification describes: the first-collected candidate
of maximal text length; if there are no candidates, the document body, or
the whole document when there is no body. -/
def chosenSpec (doc : List Node) : Chosen :=
  match firstMax (candidates doc) with
  | some c => .node c.2
  | none =>
    match docBody doc with
    | some b => .node b
    | none => .whole doc

end ExtractPageContent

/-! ### The stable descending sort picks the first maximal candidate -/

namespace ExtractPageContent

theorem insertDesc_ne_nil (x : Nat × Node) (s : List (Nat × Node)) :
    insertDesc x s ≠ [] := by
  cases s with
  | nil => simp [insertDesc]
  | cons y ys =>
    unfold insertDesc
    by_cases h : y.1 ≤ x.1 <;> simp [h]

theorem sortDesc_eq_nil {cs : List (Nat × Node)} :
    sortDesc cs = [] ↔ cs = [] := by
  constructor
  · intro h
    cases cs with
    | nil => rfl
    | cons x xs => exact absurd h (insertDesc_ne_nil x (sortDesc xs))
  · intro h
    subst h
    rfl

theorem insertDesc_head (x : Nat × Node) (s : List (Nat × Node)) :
    (insertDesc x s).head? = some (match s with
      | [] => x
      | y :: _ => if y.1 ≤ x.1 then x else y) := by
  cases s with
  | nil => rfl
  | cons y ys =>
    unfold insertDesc
    by_cases h : y.1 ≤ x.1 <;> simp [h]

theorem maxLen_cons (x : Nat × Node) (t : List (Nat × Node)) :
    maxLen (x :: t) = max x.1 (maxLen t) := by
  simp [maxLen]

theorem firstMax_key {cs : List (Nat × Node)} {c : Nat × Node}
    (h : firstMax cs = some c) : c.1 = maxLen cs := by
  have := List.find?_some h
  simpa using this

theorem sortDesc_head : ∀ cs : List (Nat × Node),
    (sortDesc cs).head? = firstMax cs := by
  intro cs
  induction cs with
  | nil => rfl
  | cons x t ih =>
    show (insertDesc x (sortDesc t)).head? = firstMax (x :: t)
    rw [insertDesc_head]
    cases hs : sortDesc t with
    | nil =>
      have ht : t = [] := sortDesc_eq_nil.mp hs
      subst ht
      unfold firstMax
      rw [List.find?_cons]
      have : maxLen [x] = x.1 := by simp [maxLen]
      simp [this]
    | cons y ys =>
      rw [hs] at ih
      have hy : firstMax t = some y := by simpa using ih.symm
      have hykey : y.1 = maxLen t := firstMax_key hy
      by_cases hle : y.1 ≤ x.1
      · simp only [hle, if_true]
        have hmax : maxLen (x :: t) = x.1 := by
          rw [maxLen_cons]
          omega
        unfold firstMax
        rw [List.find?_cons]
        simp [hmax]
      · simp only [hle, if_false]
        have hmax : maxLen (x :: t) = maxLen t := by
          rw [maxLen_cons]
          omega
        unfold firstMax
        rw [List.find?_cons]
        have hxne : (decide (x.1 = maxLen (x :: t))) = false := by
          simp only [decide_eq_false_iff_not]
          omega
        rw [hxne]
        unfold firstMax at hy
        rw [hmax]
        exact hy.symm

end ExtractPageContent

/-- C1: in `extract_main_text`, the content container chosen after boilerplate
removal is the candidate (collected from the fixed selector list in order)
whose visible text length is maximal, with ties broken in favour of the
candidate collected first (the descending length sort is stable); when no
candidates exist the document body is used, or the whole document when there
is no body. -/
theorem c1_best_container (doc : List Node) :
    ExtractPageContent.best_text_container doc = ExtractPageContent.chosenSpec doc ∧
    ExtractPageContent.extract_main_text doc =
      ExtractPageContent.clean (ExtractPageContent.getTextChosen ['\n']
        (ExtractPageContent.chosenSpec (ExtractPageContent.removeBoilerplate doc))) := by
  have hmain : ∀ d : List Node,
      ExtractPageContent.best_text_container d = ExtractPageContent.chosenSpec d := by
    intro d
    unfold ExtractPageContent.best_text_container ExtractPageContent.chosenSpec
    by_cases hc : (ExtractPageContent.candidates d).isEmpty
    · rw [if_pos hc]
      have hnil : ExtractPageContent.candidates d = [] := by
        simpa using hc
      rw [hnil]
      rfl
    · rw [if_neg hc]
      have hnnil : ExtractPageContent.candidates d ≠ [] := by
        intro h
        rw [h] at hc
        exact hc rfl
      cases hs : ExtractPageContent.sortDesc (ExtractPageContent.candidates d) with
      | nil => exact absurd (ExtractPageContent.sortDesc_eq_nil.mp hs) hnnil
      | cons c rest =>
        have := ExtractPageContent.sortDesc_head (ExtractPageContent.candidates d)
        rw [hs] at this
        rw [show ExtractPageContent.firstMax (ExtractPageContent.candidates d) =
          some c from by simpa using this.symm]
  refine ⟨hmain doc, ?_⟩
  unfold ExtractPageContent.extract_main_text
  rw [hmain (ExtractPageContent.removeBoilerplate doc)]

/-! ### The FAQ accordion extractor -/

namespace ExtractFaq

/-- The h6 loop of `extract_faq_from_html` (lines 31-44): `inAcc` is the
document-order list of the accordion's descendants (each node keeping its
subtree) and `after` is the document order after the accordion's subtree.
`accordion.select("h6")` yields exactly the h6 elements of `inAcc` in order,
and for an h6 at a given position `h6.find_next("div", class_="richText")`
scans exactly the remainder of `inAcc` followed by `after`. -/
def faqLoop : List Node → List Node → List (Str × Str)
  | [], _ => []
  | n :: rest, after =>
    if isH6 n then
      let q := clean (getText [' '] n)
      if q.isEmpty then faqLoop rest after
      else
        match (rest ++ after).find? isRichTextDiv with
        | none => faqLoop rest after
        | some d =>
          let a := clean (getText ['\n'] d)
          if a.isEmpty then faqLoop rest after
          else (q, a) :: faqLoop rest after
    else faqLoop rest after

/-- Model of `extract_faq_from_html` (`src/extract_faq.py` lines 22-46).
Parsing the raw HTML string is BeautifulSoup glue; the model takes the
parsed document. -/
def extract_faq_from_html (doc : List Node) : List (Str × Str) :=
  match selectOneCtx isAccordionSection doc [] with
  | none => []
  | some (_, inAcc, after) => faqLoop inAcc after

end ExtractFaq

theorem faqLoop_nonempty :
    ∀ (inAcc after : List Node) (qa : Str × Str),
      qa ∈ ExtractFaq.faqLoop inAcc after → qa.1 ≠ [] ∧ qa.2 ≠ [] := by
  intro inAcc
  induction inAcc with
  | nil =>
    intro after qa h
    simp [ExtractFaq.faqLoop] at h
  | cons n rest ih =>
    intro after qa h
    rw [ExtractFaq.faqLoop] at h
    by_cases hh : isH6 n
    · rw [if_pos hh] at h
      by_cases hq : (ExtractFaq.clean (getText [' '] n)).isEmpty
      · rw [if_pos hq] at h
        exact ih after qa h
      · rw [if_neg hq] at h
        cases hf : (rest ++ after).find? isRichTextDiv with
        | none =>
          rw [hf] at h
          exact ih after qa h
        | some d =>
          rw [hf] at h
          have h' : qa ∈ (if (ExtractFaq.clean (getText ['\n'] d)).isEmpty then
              ExtractFaq.faqLoop rest after
            else
              (ExtractFaq.clean (getText [' '] n),
                ExtractFaq.clean (getText ['\n'] d)) ::
                ExtractFaq.faqLoop rest after) := h
          clear h
          by_cases ha : (ExtractFaq.clean (getText ['\n'] d)).isEmpty
          · rw [if_pos ha] at h'
            exact ih after qa h'
          · rw [if_neg ha] at h'
            rcases List.mem_cons.mp h' with hqa | hqa
            · subst hqa
              constructor
              · intro hnil
                exact hq (by
                  rw [show ExtractFaq.clean (getText [' '] n) = [] from hnil]
                  rfl)
              · intro hnil
                exact ha (by
                  rw [show ExtractFaq.clean (getText ['\n'] d) = [] from hnil]
                  rfl)
            · exact ih after qa hqa
    · rw [if_neg hh] at h
      exact ih after qa h

/-- C4: every (question, answer) pair returned by `extract_faq_from_html`
has both components non-empty after normalization; no pair with an empty
side is ever emitted. -/
theorem c4_nonempty_pairs (doc : List Node) (qa : Str × Str)
    (h : qa ∈ ExtractFaq.extract_faq_from_html doc) : qa.1 ≠ [] ∧ qa.2 ≠ [] := by
  unfold ExtractFaq.extract_faq_from_html at h
  cases hs : selectOneCtx isAccordionSection doc [] with
  | none =>
    rw [hs] at h
    simp at h
  | some res =>
    rw [hs] at h
    exact faqLoop_nonempty res.2.1 res.2.2 qa h

theorem selectOneCtx_none {p : Node → Bool} :
    ∀ (k : Nat) (ns : List Node), sizeOf ns ≤ k →
      (∀ n ∈ preorder ns, p n = false) →
      ∀ after, selectOneCtx p ns after = none := by
  intro k
  induction k with
  | zero =>
    intro ns hk h after
    cases ns with
    | nil => rfl
    | cons n r =>
      exfalso
      have : sizeOf (n :: r) ≥ 1 := by
        cases n <;> simp <;> omega
      omega
  | succ k ih =>
    intro ns hk h after
    cases ns with
    | nil => rfl
    | cons n r =>
      have hsr : sizeOf r ≤ k := by
        have := List.cons.sizeOf_spec n r
        have hn1 : 1 ≤ sizeOf n := by cases n <;> simp <;> omega
        omega
      have hn : selectOneCtxN p n (preorder r ++ after) = none := by
        cases n with
        | text s => rfl
        | elem t i cs h' ch =>
          have hp : p (.elem t i cs h' ch) = false := by
            apply h
            simp [preorder, preorderN]
          rw [show selectOneCtxN p (.elem t i cs h' ch) (preorder r ++ after) =
            (if p (.elem t i cs h' ch) then
              some (.elem t i cs h' ch, preorder ch, preorder r ++ after)
            else selectOneCtx p ch (preorder r ++ after)) from rfl, hp]
          simp only [Bool.false_eq_true, if_false]
          have hsch : sizeOf ch ≤ k := by
            have h1 := List.cons.sizeOf_spec (Node.elem t i cs h' ch) r
            have h2 := Node.elem.sizeOf_spec t i cs h' ch
            omega
          exact ih ch hsch
            (fun m hm => h m (by
              simp only [preorder, preorderN, List.cons_append, List.mem_cons,
                List.mem_append]
              exact Or.inr (Or.inl hm)))
            (preorder r ++ after)
      rw [show selectOneCtx p (n :: r) after =
        (match selectOneCtxN p n (preorder r ++ after) with
          | some res => some res
          | none => selectOneCtx p r after) from rfl, hn]
      exact ih r hsr
        (fun m hm => h m (by
          simp only [preorder, List.mem_append]
          exact Or.inr hm))
        after

/-- C5: for every document that contains no accordion container (no
`section` element with id `accordion`), `extract_faq_from_html` returns the
empty list; in the model the function is total, so no error is possible. -/
theorem c5_no_accordion (doc : List Node)
    (h : ∀ n ∈ preorder doc, isAccordionSection n = false) :
    ExtractFaq.extract_faq_from_html doc = [] := by
  unfold ExtractFaq.extract_faq_from_html
  rw [selectOneCtx_none (sizeOf doc) doc le_rfl h []]

/-- A small document without any accordion section. -/
def sampleNoAccDoc : List Node :=
  [Node.elem "div".toList none [] none [Node.text "x".toList],
   Node.elem "section".toList (some "main".toList) [] none []]

/-- Witness for C5 at a concrete accordion-free document. -/
theorem c5_no_accordion_witness :
    (∀ n ∈ preorder sampleNoAccDoc, isAccordionSection n = false) ∧
      ExtractFaq.extract_faq_from_html sampleNoAccDoc = [] := by
  have h : ∀ n ∈ preorder sampleNoAccDoc, isAccordionSection n = false := by decide
  exact ⟨h, c5_no_accordion _ h⟩

/-- A small document holding one accordion with one question and answer. -/
def sampleFaqDoc : List Node :=
  [Node.elem "section".toList (some "accordion".toList) [] none
    [Node.elem "h6".toList none [] none [Node.text "Q".toList],
     Node.elem "div".toList none ["richText".toList] none [Node.text "A".toList]]]

/-- Witness for C4 at a concrete one-pair document. -/
theorem c4_nonempty_pairs_witness :
    ("Q".toList, "A".toList) ∈ ExtractFaq.extract_faq_from_html sampleFaqDoc ∧
      ("Q".toList, "A".toList).1 ≠ [] ∧ ("Q".toList, "A".toList).2 ≠ [] := by
  have hmem : ("Q".toList, "A".toList) ∈ ExtractFaq.extract_faq_from_html sampleFaqDoc := by
    decide
  exact ⟨hmem, c4_nonempty_pairs sampleFaqDoc _ hmem⟩

/-! ### The link segregator -/

namespace ExtractLinks

/-- The `SEPARATOR` constant of `src/extract_links.py` (14 dashes). -/
def SEPARATOR : Str := List.replicate 14 '-'

/-- The `BASE` constant of `src/extract_links.py`: the fixed site origin. -/
def BASE : Str := "https://www.sutd.edu.sg".toList

/-- Href rewriting of `extract_links_from_raw` (lines 49-51): an href
starting with `/` is prefixed with the fixed site origin, every other href
is kept unchanged. -/
def rewriteHref (href : Str) : Str :=
  if beginsWith ['/'] href then BASE ++ href else href

/-- Model of `ans_div.find_all("a", href=True)`: the href values of the
descendant anchor elements carrying an href attribute, in document order. -/
def anchorHrefs : Node → List Str
  | .text _ => []
  | .elem _ _ _ _ ch =>
    (preorder ch).filterMap (fun m =>
      match m with
      | .elem tag _ _ (some h) _ => if tag = "a".toList then some h else none
      | _ => none)

/-- A link record as appended to `link_records`: question text, rewritten
link and source file name. -/
structure LinkRecord where
  question : Str
  link : Str
  source_file : Str

/-- The entry text `f"{SEPARATOR}\n{question}\n\n{answer_text}\n"`. -/
def entryText (q a : Str) : Str :=
  SEPARATOR ++ '\n' :: (q ++ '\n' :: '\n' :: (a ++ ['\n']))

/-- The h6 loop of `extract_links_from_raw` for one page (lines 36-65):
`inAcc` is the document-order list of the accordion's descendants and
`after` the document order after its subtree; an h6's `find_next` scans the
remainder of `inAcc` followed by `after`.  Returns the page's contributions
to `(faq_no_links, faq_with_links, link_records)`. -/
def linksLoop (srcName : Str) :
    List Node → List Node → List Str × List Str × List LinkRecord
  | [], _ => ([], [], [])
  | n :: rest, after =>
    if isH6 n then
      match (rest ++ after).find? isRichTextDiv with
      | none => linksLoop srcName rest after
      | some d =>
        if ((anchorHrefs d).map rewriteHref).isEmpty then
          (entryText (getText [' '] n) (getText ['\n'] d) ::
            (linksLoop srcName rest after).1,
           (linksLoop srcName rest after).2.1,
           (linksLoop srcName rest after).2.2)
        else
          ((linksLoop srcName rest after).1,
           entryText (getText [' '] n) (getText ['\n'] d) ::
             (linksLoop srcName rest after).2.1,
           ((anchorHrefs d).map rewriteHref).map
             (fun l => LinkRecord.mk (getText [' '] n) l srcName) ++
             (linksLoop srcName rest after).2.2)
    else linksLoop srcName rest after

/-- Model of `extract_links_from_raw` (`src/extract_links.py` lines 20-67):
the loop over the sorted raw HTML files.  Reading and parsing the files is
filesystem glue; the model takes the (file name, parsed document) pairs in
sorted order and returns `(faq_no_links, faq_with_links, link_records)`. -/
def extract_links_from_raw (files : List (Str × List Node)) :
    List Str × List Str × List LinkRecord :=
  match files with
  | [] => ([], [], [])
  | (name, doc) :: restFiles =>
    match selectOneCtx isAccordionSection doc [] with
    | none => extract_links_from_raw restFiles
    | some (_, inAcc, after) =>
      ((linksLoop name inAcc after).1 ++ (extract_links_from_raw restFiles).1,
       (linksLoop name inAcc after).2.1 ++ (extract_links_from_raw restFiles).2.1,
       (linksLoop name inAcc after).2.2 ++ (extract_links_from_raw restFiles).2.2)

/-- Specification-side vocabulary: the matched answers of one page — the
(question, answer element) pair of every h6 whose `find_next` finds a
rich-text div. -/
def matchedLoop : List Node → List Node → List (Str × Node)
  | [], _ => []
  | n :: rest, after =>
    if isH6 n then
      match (rest ++ after).find? isRichTextDiv with
      | none => matchedLoop rest after
      | some d => (getText [' '] n, d) :: matchedLoop rest after
    else matchedLoop rest after

/-- Specification-side vocabulary: all matched answers across the files. -/
def matched_answers (files : List (Str × List Node)) : List (Str × Node) :=
  match files with
  | [] => []
  | (_, doc) :: restFiles =>
    (match selectOneCtx isAccordionSection doc [] with
      | none => []
      | some (_, inAcc, after) => matchedLoop inAcc after)
    ++ matched_answers restFiles

/-- A matched answer carries at least one anchor with an href attribute. -/
def hasLinks (m : Str × Node) : Bool := !(anchorHrefs m.2).isEmpty

/-- The entry text of a matched answer. -/
def entryOf (m : Str × Node) : Str := entryText m.1 (getText ['\n'] m.2)

end ExtractLinks

theorem map_isEmpty {α β : Type} (f : α → β) (l : List α) :
    (l.map f).isEmpty = l.isEmpty := by
  cases l <;> rfl

theorem filter_length_split {α : Type} (p : α → Bool) (l : List α) :
    (l.filter (fun x => !p x)).length + (l.filter p).length = l.length := by
  induction l with
  | nil => rfl
  | cons x t ih =>
    by_cases h : p x <;> simp [List.filter_cons, h] <;> omega

theorem linksLoop_spec (srcName : Str) :
    ∀ (inAcc after : List Node),
      (ExtractLinks.linksLoop srcName inAcc after).1 =
        ((ExtractLinks.matchedLoop inAcc after).filter
          (fun m => !ExtractLinks.hasLinks m)).map ExtractLinks.entryOf ∧
      (ExtractLinks.linksLoop srcName inAcc after).2.1 =
        ((ExtractLinks.matchedLoop inAcc after).filter
          ExtractLinks.hasLinks).map ExtractLinks.entryOf := by
  intro inAcc
  induction inAcc with
  | nil => intro after; exact ⟨rfl, rfl⟩
  | cons n rest ih =>
    intro after
    by_cases hh : isH6 n
    · cases hf : (rest ++ after).find? isRichTextDiv with
      | none =>
        simp only [ExtractLinks.linksLoop, ExtractLinks.matchedLoop, hh, hf, if_true]
        exact ih after
      | some d =>
        simp only [ExtractLinks.linksLoop, ExtractLinks.matchedLoop, hh, hf, if_true]
        have hmap : ((ExtractLinks.anchorHrefs d).map ExtractLinks.rewriteHref).isEmpty
            = (ExtractLinks.anchorHrefs d).isEmpty := map_isEmpty _ _
        by_cases hl : (ExtractLinks.anchorHrefs d).isEmpty
        · rw [if_pos (by rw [hmap]; exact hl)]
          have hhl : ExtractLinks.hasLinks (getText [' '] n, d) = false := by
            simp [ExtractLinks.hasLinks, hl]
          rw [List.filter_cons, List.filter_cons]
          simp only [hhl, Bool.not_false, if_true, Bool.false_eq_true, if_false]
          exact ⟨by rw [List.map_cons, (ih after).1]; rfl, (ih after).2⟩
        · rw [if_neg (by rw [hmap]; exact hl)]
          have hhl : ExtractLinks.hasLinks (getText [' '] n, d) = true := by
            simp only [ExtractLinks.hasLinks, Bool.not_eq_eq_eq_not, Bool.not_false]
            simpa using hl
          rw [List.filter_cons, List.filter_cons]
          simp only [hhl, Bool.not_true, Bool.false_eq_true, if_false, if_true]
          exact ⟨(ih after).1, by rw [List.map_cons, (ih after).2]; rfl⟩
    · simp only [ExtractLinks.linksLoop, ExtractLinks.matchedLoop, hh,
        Bool.false_eq_true, if_false]
      exact ih after

/-- C6: in `extract_links_from_raw`, every matched answer block is placed in
exactly one of the no-links and with-links output lists — in the with-links
list exactly when it contains at least one anchor carrying an href attribute
— and the lengths of the two lists add up to the number of matched
answers. -/
theorem c6_partition (files : List (Str × List Node)) :
    (ExtractLinks.extract_links_from_raw files).1 =
      ((ExtractLinks.matched_answers files).filter
        (fun m => !ExtractLinks.hasLinks m)).map ExtractLinks.entryOf ∧
    (ExtractLinks.extract_links_from_raw files).2.1 =
      ((ExtractLinks.matched_answers files).filter
        ExtractLinks.hasLinks).map ExtractLinks.entryOf ∧
    (ExtractLinks.extract_links_from_raw files).1.length +
      (ExtractLinks.extract_links_from_raw files).2.1.length =
      (ExtractLinks.matched_answers files).length := by
  have hmain : ∀ fs : List (Str × List Node),
      (ExtractLinks.extract_links_from_raw fs).1 =
        ((ExtractLinks.matched_answers fs).filter
          (fun m => !ExtractLinks.hasLinks m)).map ExtractLinks.entryOf ∧
      (ExtractLinks.extract_links_from_raw fs).2.1 =
        ((ExtractLinks.matched_answers fs).filter
          ExtractLinks.hasLinks).map ExtractLinks.entryOf := by
    intro fs
    induction fs with
    | nil => exact ⟨rfl, rfl⟩
    | cons f restFiles ih =>
      obtain ⟨name, doc⟩ := f
      rw [ExtractLinks.extract_links_from_raw, ExtractLinks.matched_answers]
      cases hs : selectOneCtx isAccordionSection doc [] with
      | none =>
        simpa using ih
      | some res =>
        obtain ⟨nd, inAcc, after⟩ := res
        simp only [List.filter_append, List.map_append]
        exact ⟨by rw [(linksLoop_spec name inAcc after).1, ih.1],
          by rw [(linksLoop_spec name inAcc after).2, ih.2]⟩
  refine ⟨(hmain files).1, (hmain files).2, ?_⟩
  rw [(hmain files).1, (hmain files).2, List.length_map, List.length_map]
  exact filter_length_split _ _

/-- C7: every href beginning with `/` is rewritten by prefixing the fixed
site origin, and every href not beginning with `/` passes through
unmodified. -/
theorem c7_rewrite (href : Str) :
    (beginsWith ['/'] href = true →
      ExtractLinks.rewriteHref href = ExtractLinks.BASE ++ href) ∧
    (beginsWith ['/'] href = false → ExtractLinks.rewriteHref href = href) := by
  unfold ExtractLinks.rewriteHref
  constructor
  · intro h
    rw [if_pos h]
  · intro h
    rw [if_neg (by simp [h])]

/-- Witness for C7: `/foo/bar` becomes `https://www.sutd.edu.sg/foo/bar`,
and `mailto:x@y` passes through unchanged. -/
theorem c7_rewrite_witness :
    (beginsWith ['/'] "/foo/bar".toList = true ∧
      ExtractLinks.rewriteHref "/foo/bar".toList =
        "https://www.sutd.edu.sg/foo/bar".toList) ∧
    (beginsWith ['/'] "mailto:x@y".toList = false ∧
      ExtractLinks.rewriteHref "mailto:x@y".toList = "mailto:x@y".toList) := by
  refine ⟨⟨by decide, ?_⟩, ⟨by decide, (c7_rewrite "mailto:x@y".toList).2 (by decide)⟩⟩
  rw [(c7_rewrite "/foo/bar".toList).1 (by decide)]
  decide

/-! ### The HTTP fetcher's retry loop -/

namespace FetchHtml

/-- Outcome of one `requests.get` call: an HTTP response with a status code
and body text, or a raised transport exception with a message. -/
inductive Attempt where
  | resp (status : Nat) (text : Str)
  | exc (msg : Str)

/-- The `status` variable of the loop: Python renders it as
`str(resp.status_code)` or `"EXCEPTION"`; the model keeps the code itself. -/
inductive StatusV where
  | code (n : Nat)
  | exception
deriving DecidableEq

/-- The `last_err` strings `f"HTTP_{status}"` and `repr(e)`. -/
inductive Err where
  | http (n : Nat)
  | exc (msg : Str)
deriving DecidableEq

/-- The observable behaviour of one `fetch_html` call: the returned triple
`(html, status, error)` together with the backoff sleeps performed (in
order) and the number of request attempts made. -/
structure FetchRes where
  html : Option Str
  status : StatusV
  err : Option Err
  sleeps : List ℚ
  calls : Nat
deriving DecidableEq

/-- True exactly on a response with status exactly 200 (the only outcome on
which `fetch_html` returns the body). -/
def isSuccess : Attempt → Bool
  | .resp 200 _ => true
  | _ => false

/-- Behaviour of one loop iteration of `fetch_html` on the outcome of its
`requests.get` call, with `rem` further attempts available and `cont` the
behaviour of the remaining iterations: a 200 response returns the body at
once; any other outcome records the error and either retries after a
backoff sleep of `backoff * (i + 1)` seconds or, when no attempts remain,
returns `(None, status, last_err)` from this final attempt. -/
def attemptStep (backoff : ℚ) (i rem : Nat) (cont : FetchRes) : Attempt → FetchRes
  | .resp st txt =>
    if st = 200 then ⟨some txt, .code st, none, [], 1⟩
    else if rem = 0 then ⟨none, .code st, some (.http st), [], 1⟩
    else ⟨cont.html, cont.status, cont.err,
      backoff * (i + 1 : ℚ) :: cont.sleeps, cont.calls + 1⟩
  | .exc msg =>
    if rem = 0 then ⟨none, .exception, some (.exc msg), [], 1⟩
    else ⟨cont.html, cont.status, cont.err,
      backoff * (i + 1 : ℚ) :: cont.sleeps, cont.calls + 1⟩

/-- The retry loop of `fetch_html` (`src/fetch_html.py` lines 60-79) from
attempt index `i` with `remaining` attempts left (this one included);
`oracle i` is the outcome of the i-th `requests.get`.  `remaining = 0` is
unreachable from `fetch_html`. -/
def fetchFrom (oracle : Nat → Attempt) (backoff : ℚ) : Nat → Nat → FetchRes
  | 0, _ => ⟨none, .exception, none, [], 0⟩
  | remaining + 1, i =>
    attemptStep backoff i remaining
      (fetchFrom oracle backoff remaining (i + 1)) (oracle i)

/-- Model of `fetch_html` (lines 48-79): run attempts `0 .. retries`. -/
def fetch_html (oracle : Nat → Attempt) (retries : Nat) (backoff : ℚ) : FetchRes :=
  fetchFrom oracle backoff (retries + 1) 0

end FetchHtml

theorem fetchFrom_calls (oracle : Nat → FetchHtml.Attempt) (backoff : ℚ) :
    ∀ remaining i,
      (FetchHtml.fetchFrom oracle backoff remaining i).calls ≤ remaining := by
  intro remaining
  induction remaining with
  | zero => intro i; exact le_rfl
  | succ rem ih =>
    intro i
    rw [FetchHtml.fetchFrom]
    cases ho : oracle i with
    | resp st txt =>
      rw [FetchHtml.attemptStep]
      by_cases h200 : st = 200
      · rw [if_pos h200]
        simp
      · rw [if_neg h200]
        by_cases hrem : rem = 0
        · rw [if_pos hrem]
          simp
        · rw [if_neg hrem]
          have := ih (i + 1)
          show (FetchHtml.fetchFrom oracle backoff rem (i + 1)).calls + 1 ≤ rem + 1
          omega
    | exc msg =>
      rw [FetchHtml.attemptStep]
      by_cases hrem : rem = 0
      · rw [if_pos hrem]
        simp
      · rw [if_neg hrem]
        have := ih (i + 1)
        show (FetchHtml.fetchFrom oracle backoff rem (i + 1)).calls + 1 ≤ rem + 1
        omega

theorem fetchFrom_html_success (oracle : Nat → FetchHtml.Attempt) (backoff : ℚ) :
    ∀ remaining i tx,
      (FetchHtml.fetchFrom oracle backoff remaining i).html = some tx →
      ∃ j, i ≤ j ∧ j < i + remaining ∧ oracle j = .resp 200 tx := by
  intro remaining
  induction remaining with
  | zero =>
    intro i tx h
    cases h
  | succ rem ih =>
    intro i tx h
    rw [FetchHtml.fetchFrom] at h
    cases ho : oracle i with
    | resp st txt =>
      rw [ho, FetchHtml.attemptStep] at h
      by_cases h200 : st = 200
      · rw [if_pos h200] at h
        have : txt = tx := by simpa using h
        subst this
        subst h200
        exact ⟨i, le_rfl, by omega, ho⟩
      · rw [if_neg h200] at h
        by_cases hrem : rem = 0
        · rw [if_pos hrem] at h
          cases h
        · rw [if_neg hrem] at h
          have h' : (FetchHtml.fetchFrom oracle backoff rem (i + 1)).html = some tx := h
          obtain ⟨j, hij, hlt, hj⟩ := ih (i + 1) tx h'
          exact ⟨j, by omega, by omega, hj⟩
    | exc msg =>
      rw [ho, FetchHtml.attemptStep] at h
      by_cases hrem : rem = 0
      · rw [if_pos hrem] at h
        cases h
      · rw [if_neg hrem] at h
        have h' : (FetchHtml.fetchFrom oracle backoff rem (i + 1)).html = some tx := h
        obtain ⟨j, hij, hlt, hj⟩ := ih (i + 1) tx h'
        exact ⟨j, by omega, by omega, hj⟩

/-- C8: `fetch_html` performs at most `retries + 1` request attempts and
succeeds only on an exact HTTP 200; and when the first two attempts fail and
the third returns 200 with `retries = 2`, it returns the successful body
after exactly two backoff sleeps of durations `backoff * 1` then
`backoff * 2`. -/
theorem c8_fetch_retry (oracle : Nat → FetchHtml.Attempt) (backoff : ℚ) (t : Str)
    (h0 : FetchHtml.isSuccess (oracle 0) = false)
    (h1 : FetchHtml.isSuccess (oracle 1) = false)
    (h2 : oracle 2 = .resp 200 t) :
    (FetchHtml.fetch_html oracle 2 backoff).html = some t ∧
    (FetchHtml.fetch_html oracle 2 backoff).sleeps =
      [backoff * 1, backoff * 2] ∧
    (FetchHtml.fetch_html oracle 2 backoff).calls = 3 ∧
    (∀ (o : Nat → FetchHtml.Attempt) (r : Nat) (b : ℚ),
      (FetchHtml.fetch_html o r b).calls ≤ r + 1 ∧
      ∀ tx, (FetchHtml.fetch_html o r b).html = some tx →
        ∃ i, i ≤ r ∧ o i = .resp 200 tx) := by
  have hstep : ∀ j rem, FetchHtml.isSuccess (oracle j) = false →
      FetchHtml.fetchFrom oracle backoff (rem + 2) j =
        ⟨(FetchHtml.fetchFrom oracle backoff (rem + 1) (j + 1)).html,
         (FetchHtml.fetchFrom oracle backoff (rem + 1) (j + 1)).status,
         (FetchHtml.fetchFrom oracle backoff (rem + 1) (j + 1)).err,
         backoff * (j + 1 : ℚ) ::
           (FetchHtml.fetchFrom oracle backoff (rem + 1) (j + 1)).sleeps,
         (FetchHtml.fetchFrom oracle backoff (rem + 1) (j + 1)).calls + 1⟩ := by
    intro j rem hj
    rw [FetchHtml.fetchFrom]
    cases ho : oracle j with
    | resp st txt =>
      rw [FetchHtml.attemptStep]
      have hne : st ≠ 200 := by
        intro h
        subst h
        rw [ho] at hj
        simp [FetchHtml.isSuccess] at hj
      rw [if_neg hne, if_neg (Nat.succ_ne_zero rem)]
    | exc msg =>
      rw [FetchHtml.attemptStep]
      rw [if_neg (Nat.succ_ne_zero rem)]
  have hlast : FetchHtml.fetchFrom oracle backoff 1 2 =
      ⟨some t, .code 200, none, [], 1⟩ := by
    rw [FetchHtml.fetchFrom, h2, FetchHtml.attemptStep, if_pos rfl]
  have hrun : FetchHtml.fetch_html oracle 2 backoff =
      ⟨some t, .code 200, none, [backoff * 1, backoff * 2], 3⟩ := by
    unfold FetchHtml.fetch_html
    rw [show (2 + 1 : Nat) = 1 + 2 from rfl, hstep 0 1 h0,
      show (1 + 1 : Nat) = 0 + 2 from rfl, hstep 1 0 h1, hlast]
    norm_num
  refine ⟨by rw [hrun], by rw [hrun], by rw [hrun], ?_⟩
  intro o r b
  refine ⟨fetchFrom_calls o b (r + 1) 0, ?_⟩
  intro tx htx
  obtain ⟨j, _, hlt, hj⟩ := fetchFrom_html_success o b (r + 1) 0 tx htx
  exact ⟨j, by omega, hj⟩

/-- A concrete oracle failing twice (one non-200 response, one exception)
and then succeeding. -/
def sampleOracle : Nat → FetchHtml.Attempt
  | 0 => .resp 503 []
  | 1 => .exc "timeout".toList
  | _ => .resp 200 "ok".toList

/-- Witness for C8 at the concrete oracle with `backoff = 3/2`. -/
theorem c8_fetch_retry_witness :
    FetchHtml.isSuccess (sampleOracle 0) = false ∧
    FetchHtml.isSuccess (sampleOracle 1) = false ∧
    sampleOracle 2 = .resp 200 "ok".toList ∧
    (FetchHtml.fetch_html sampleOracle 2 (3/2)).html = some "ok".toList ∧
    (FetchHtml.fetch_html sampleOracle 2 (3/2)).sleeps =
      [(3/2 : ℚ) * 1, (3/2 : ℚ) * 2] ∧
    (FetchHtml.fetch_html sampleOracle 2 (3/2)).calls = 3 := by
  have h := c8_fetch_retry sampleOracle (3/2) "ok".toList rfl rfl rfl
  exact ⟨rfl, rfl, rfl, h.1, h.2.1, h.2.2.1⟩
